import Mathlib

/-!
# EdgeAPI: sharded per-user bandwidth statistics

A shallow embedding of `internal/db/models/user_bandwidth_stat_dao.go`.

* The relational store is a family of twenty partition tables; a table is a
  list of rows plus its auto-increment counter.
* Every DAO method becomes a function from the store (and the call's
  arguments) to `Except String _`: the Go `error` is the `Except.error` side.
* The query-builder primitives of the storage library (`Attr`, `Between`,
  `Group`, `Desc`, `Offset`, `Find`, `CountAttr`, `InsertOrUpdateQuickly`,
  `Lt`, `Delete`) are given their SQL meaning on lists of rows.
* Machine integers (`int64`, `int32`) are `Int`; the only Go arithmetic that
  can wrap, `bytes * 8`, carries an explicit reduction modulo `2^64`, and
  `one.GetInt64("bytes")` of the range report, which reads a sum of stored
  values into an `int64`, is the conversion `GetInt64`. The `bytes` column and
  `SUM(bytes)` are integers without a bound: a value that leaves the range of
  the column is a storage error outside this model, as are lost connections
  and timeouts. The one storage error modelled is a query on a table that does
  not exist.
* Helpers of the repository whose source is not at hand (`utils.RangeDays`,
  `utils.Range24HourTimes`, `regexputils.YYYYMMDD`) are modelled from the
  specification and marked so; the wall clock is an argument of the calls
  that read it.
* The goroutines of `runBatch` work on disjoint tables; they are run one after
  the other, and results that depend on their interleaving are stated for
  every order.
-/

namespace EdgeAPI

/-! ## Strings -/

/-- Lexicographic comparison of two character sequences by code point.  This
is the order of Go's `<` on strings (byte-wise on UTF-8, which agrees with the
code-point order) and of the storage engine on the digit strings used as day
keys. -/
def ltChars : List Char → List Char → Bool
  | [], [] => false
  | [], _ :: _ => true
  | _ :: _, [] => false
  | a :: as, b :: bs =>
    if a.toNat < b.toNat then true
    else if b.toNat < a.toNat then false
    else ltChars as bs

/-- Go's `a < b` on strings. -/
def strLt (a b : String) : Bool := ltChars a.data b.data

/-- Go's `a <= b` on strings. -/
def strLe (a b : String) : Bool := !strLt b a

/-! ## Data model -/

deriving instance DecidableEq for Except

/-- One row of a partition table (`UserBandwidthStat`). -/
structure UserBandwidthStat where
  Id : Nat
  UserId : Int
  RegionId : Int
  Day : String
  TimeAt : String
  Bytes : Int
deriving DecidableEq, Repr

/-- The constant `UserBandwidthStatTablePartials`. -/
abbrev UserBandwidthStatTablePartials : Nat := 20

/-- One partition table: its rows in storage order and the next value of the
auto-increment primary key. -/
structure PartialTable where
  rows : List UserBandwidthStat
  autoIncrement : Nat
deriving DecidableEq, Repr

/-- The relational store: the contents of the partition tables
`edgeUserBandwidthStats_0` to `edgeUserBandwidthStats_19`. -/
abbrev Store := Fin UserBandwidthStatTablePartials → PartialTable

/-- A store in which every partition table is empty. -/
def emptyStore : Store := fun _ => { rows := [], autoIncrement := 1 }

/-- The `Table` field set by `NewUserBandwidthStatDAO`. -/
def Table : String := "edgeUserBandwidthStats"

/-- The method `partialTable`: `this.Table + "_" + types.String(userId % 20)`.
Go's `%` truncates towards zero, which is `Int.tmod`. -/
def partialTable (userId : Int) : String :=
  Table ++ "_" ++ toString (Int.tmod userId (UserBandwidthStatTablePartials : Int))

/-- The table names `runBatch` visits: `partialTable(int64(i))` for
`i = 0, ..., UserBandwidthStatTablePartials - 1`, in loop order. -/
def runBatchTables : List String :=
  (List.range UserBandwidthStatTablePartials).map (fun (i : Nat) => partialTable (i : Int))

/-- Resolution of a table name by the storage engine: the index of the
partition table with that name, if there is one. -/
def findTable (name : String) : Option (Fin UserBandwidthStatTablePartials) :=
  (List.finRange UserBandwidthStatTablePartials).find?
    (fun i => decide (partialTable ((i : Nat) : Int) = name))

/-- The primitive `Query(tx).Table(name)`: the addressed table, or the storage
error for a table that does not exist. -/
def Query (st : Store) (name : String) : Except String PartialTable :=
  match findTable name with
  | some i => .ok (st i)
  | none => .error ("table '" ++ name ++ "' doesn't exist")

/-- The shard index `userId mod 20` as an element of `Fin 20`. -/
def shardOf (userId : Int) : Fin UserBandwidthStatTablePartials :=
  ⟨(userId % 20).toNat, by
    have h1 : userId % 20 < 20 := Int.emod_lt_of_pos _ (by norm_num)
    have h2 : 0 ≤ userId % 20 := Int.emod_nonneg _ (by norm_num)
    show (userId % 20).toNat < 20
    omega⟩

/-! ## Sample writer -/

/-- Whether a row has the key `(userId, regionId, day, timeAt)`, the unique index
of the partition tables on which `InsertOrUpdateQuickly` detects a duplicate. -/
def sameKey (userId regionId : Int) (day timeAt : String) (r : UserBandwidthStat) : Bool :=
  decide (r.UserId = userId) && decide (r.RegionId = regionId) &&
    decide (r.Day = day) && decide (r.TimeAt = timeAt)

/-- The `ON DUPLICATE KEY UPDATE bytes = bytes + :bytes` half of the upsert:
adds `bytes` to the first row satisfying `p`. -/
def incrementFirst (p : UserBandwidthStat → Bool) (bytes : Int) :
    List UserBandwidthStat → List UserBandwidthStat
  | [] => []
  | r :: rs =>
    if p r then { r with Bytes := r.Bytes + bytes } :: rs
    else r :: incrementFirst p bytes rs

/-- The primitive `InsertOrUpdateQuickly` with insert values
`(userId, regionId, day, timeAt, bytes)` and update `bytes = bytes + :bytes`:
a row with the same unique key is incremented, otherwise a new row is appended
with the next auto-increment id. -/
def InsertOrUpdateQuickly (t : PartialTable) (userId regionId : Int) (day timeAt : String)
    (bytes : Int) : PartialTable :=
  if t.rows.any (sameKey userId regionId day timeAt) then
    { t with rows := incrementFirst (sameKey userId regionId day timeAt) bytes t.rows }
  else
    { rows := t.rows ++ [{ Id := t.autoIncrement, UserId := userId, RegionId := regionId,
                           Day := day, TimeAt := timeAt, Bytes := bytes }],
      autoIncrement := t.autoIncrement + 1 }

/-- The method `UpdateUserBandwidth`. On success the new store is returned. -/
def UpdateUserBandwidth (st : Store) (userId regionId : Int) (day timeAt : String)
    (bytes : Int) : Except String Store :=
  if userId ≤ 0 then
    .ok st
  else
    match findTable (partialTable userId) with
    | none => .error ("table '" ++ partialTable userId ++ "' doesn't exist")
    | some i => .ok (Function.update st i (InsertOrUpdateQuickly (st i) userId regionId day timeAt bytes))

/-- The row stored for a key in the user's partition table, if any. -/
def findRow (st : Store) (userId regionId : Int) (day timeAt : String) :
    Option UserBandwidthStat :=
  (st (shardOf userId)).rows.find? (sameKey userId regionId day timeAt)

/-! ## Query primitives -/

/-- The primitive `Attr("regionId", v)`, applied or not: `none` is a query without
the condition. -/
def matchesRegion (attr : Option Int) (r : UserBandwidthStat) : Bool :=
  match attr with
  | none => true
  | some v => decide (r.RegionId = v)

/-- The rows selected by the conditions shared by all read queries:
an optional `Attr("regionId", v)`, `Attr("userId", userId)` and
`Between("day", dayFrom, dayTo)` (both ends included). -/
def whereRows (rows : List UserBandwidthStat) (region : Option Int) (userId : Int)
    (dayFrom dayTo : String) : List UserBandwidthStat :=
  rows.filter (fun r =>
    matchesRegion region r && decide (r.UserId = userId) &&
      strLe dayFrom r.Day && strLe r.Day dayTo)

/-- The bucket `(day, timeAt)` of a row. -/
def bucketOf (r : UserBandwidthStat) : String × String := (r.Day, r.TimeAt)

/-- One step of `GROUP BY day, timeAt` with the result columns
`MIN(id) AS id, MIN(userId) AS userId, day, timeAt, SUM(bytes) AS bytes`:
the row joins the group of its bucket, or opens a new group. The column
`regionId` is not selected and stays at its zero value. -/
def addToGroup : List UserBandwidthStat → UserBandwidthStat → List UserBandwidthStat
  | [], r => [{ r with RegionId := 0 }]
  | g :: gs, r =>
    if bucketOf g = bucketOf r then
      { g with Id := min g.Id r.Id, UserId := min g.UserId r.UserId, Bytes := g.Bytes + r.Bytes } :: gs
    else g :: addToGroup gs r

/-- The primitives `Group("day").Group("timeAt")` with the aggregate result columns. -/
def groupByDayTimeAt (rows : List UserBandwidthStat) : List UserBandwidthStat :=
  rows.foldl addToGroup []

/-- The primitive `Desc("bytes")` on grouped rows: `ORDER BY bytes DESC`, where
`bytes` is the alias of `SUM(bytes)`. Rows with equal sums keep a
storage-defined order. -/
def orderByBytesDesc (rows : List UserBandwidthStat) : List UserBandwidthStat :=
  rows.insertionSort (fun a b => a.Bytes ≥ b.Bytes)

/-- The primitive `CountAttr("DISTINCT day, timeAt")`. -/
def countDistinctDayTimeAt (rows : List UserBandwidthStat) : Int :=
  (((rows.map bucketOf).dedup).length : Int)

/-- The value of `math.Ceil(x / 100)` for an integer `x`, as an integer.
The source evaluates `float64(total) * float64(100-percentile) / 100` in
double precision. As long as the product stays below `2^53` it is an exact
integer, and the rounded quotient has the same ceiling as the exact one
(`float64CeilDiv100_eq` below, on a model of the rounded division). That
range, far above any number of five-minute buckets, is the one modelled here. -/
def ceilDiv100 (x : Int) : Int := -((-x) / 100)

/-- The integer nearest to `num / den`, ties going to the even one: the
rounding of IEEE 754 arithmetic. -/
def roundHalfEven (num den : Nat) : Nat :=
  if 2 * (num % den) < den then num / den
  else if den < 2 * (num % den) then num / den + 1
  else if num / den % 2 = 0 then num / den
  else num / den + 1

/-- The binary exponent `e` at which `x * 2^e / 100` has a 53-bit integer part:
the least `e` with `100 * 2^52 <= x * 2^e`, searched upwards from `e`. -/
def scaleExponent (x : Nat) : Nat → Nat → Nat
  | 0, e => e
  | fuel + 1, e => if 100 * 2 ^ 52 ≤ x * 2 ^ e then e else scaleExponent x fuel (e + 1)

/-- The value of `math.Ceil(x / 100)` in double precision for a double `x` that
is a positive integer below `2^53`: the quotient is rounded to a 53-bit
significand `m` with exponent `-e`, and the ceiling of `m / 2^e` is taken. -/
def float64CeilDiv100 (x : Nat) : Nat :=
  (roundHalfEven (x * 2 ^ scaleExponent x 64 0) 100 + 2 ^ scaleExponent x 64 0 - 1) /
    2 ^ scaleExponent x 64 0

/-- The region condition of `FindPercentileBetweenDays`: a positive
`regionId` selects that region, a negative one selects `regionId = 0`, and
zero adds no condition. -/
def percentileRegion (regionId : Int) : Option Int :=
  if regionId > 0 then some regionId
  else if regionId < 0 then some 0
  else none

/-- The rank offset computed by the general path of
`FindPercentileBetweenDays` from the bucket count and the percentile. -/
def percentileOffset (total percentile : Int) : Int :=
  if total > 1 then ceilDiv100 (total * (100 - percentile)) else 0

/-- The method `FindPercentileBetweenDays`. The result is the grouped row, or
`none` for the Go result `nil, nil`. -/
def FindPercentileBetweenDays (st : Store) (userId regionId : Int) (dayFrom dayTo : String)
    (percentile : Int) : Except String (Option UserBandwidthStat) :=
  let dayFrom1 := if strLt dayTo dayFrom then dayTo else dayFrom
  let dayTo1 := if strLt dayTo dayFrom then dayFrom else dayTo
  let percentile1 := if percentile ≤ 0 then 95 else percentile
  if percentile1 ≥ 100 then
    match Query st (partialTable userId) with
    | .error e => .error e
    | .ok t =>
      .ok (orderByBytesDesc (groupByDayTimeAt
        (whereRows t.rows (percentileRegion regionId) userId dayFrom1 dayTo1))).head?
  else
    match Query st (partialTable userId) with
    | .error e => .error e
    | .ok t =>
      let total := countDistinctDayTimeAt
        (whereRows t.rows (percentileRegion regionId) userId dayFrom1 dayTo1)
      if total = 0 then .ok none
      else
        let offset := percentileOffset total percentile1
        match Query st (partialTable userId) with
        | .error e => .error e
        | .ok t2 =>
          .ok ((orderByBytesDesc (groupByDayTimeAt
            (whereRows t2.rows (percentileRegion regionId) userId dayFrom1 dayTo1))).drop
              offset.toNat).head?

/-! ## Rank selection, as the specification words it -/

/-- Whether a stored row matches a percentile request: it belongs to the
tenant, passes the region filter (`> 0` that region, `< 0` the no-region
sentinel `0`, `= 0` no restriction) and its day lies in the normalised range. -/
def rankMatches (userId regionId : Int) (dayFrom dayTo : String) (r : UserBandwidthStat) : Bool :=
  let lo := if strLt dayTo dayFrom then dayTo else dayFrom
  let hi := if strLt dayTo dayFrom then dayFrom else dayTo
  decide (r.UserId = userId) &&
    (if regionId > 0 then decide (r.RegionId = regionId)
     else if regionId < 0 then decide (r.RegionId = 0) else true) &&
    strLe lo r.Day && strLe r.Day hi

/-- The distinct `(day, timeAt)` buckets with a matching sample. -/
def rankBuckets (rows : List UserBandwidthStat) (userId regionId : Int)
    (dayFrom dayTo : String) : List (String × String) :=
  ((rows.filter (rankMatches userId regionId dayFrom dayTo)).map bucketOf).dedup

/-- The summed bytes of the matching samples of one bucket. -/
def rankBucketSum (rows : List UserBandwidthStat) (userId regionId : Int)
    (dayFrom dayTo : String) (b : String × String) : Int :=
  (((rows.filter (rankMatches userId regionId dayFrom dayTo)).filter
    (fun r => decide (bucketOf r = b))).map (fun r => r.Bytes)).sum

/-- The list `S`: the bucket sums sorted descending. -/
def rankSortedSums (rows : List UserBandwidthStat) (userId regionId : Int)
    (dayFrom dayTo : String) : List Int :=
  ((rankBuckets rows userId regionId dayFrom dayTo).map
    (rankBucketSum rows userId regionId dayFrom dayTo)).insertionSort (fun a b => a ≥ b)

/-- The rank offset of the specification: `percentile <= 0` is replaced by 95,
the offset is 0 if `percentile >= 100` or `n = 1`, and
`ceil(n * (100 - percentile) / 100)` otherwise. -/
def rankOffset (n : Nat) (percentile : Int) : Nat :=
  let p : Int := if percentile ≤ 0 then 95 else percentile
  if p ≥ 100 ∨ n = 1 then 0
  else (⌈((n : ℚ) * ((100 - p : Int) : ℚ)) / 100⌉).toNat

/-- The number of matching buckets whose summed bytes are at most `v`. -/
def bucketsAtMost (rows : List UserBandwidthStat) (userId regionId : Int)
    (dayFrom dayTo : String) (v : Int) : Nat :=
  ((rankBuckets rows userId regionId dayFrom dayTo).filter
    (fun b => decide (rankBucketSum rows userId regionId dayFrom dayTo b ≤ v))).length

/-! ## Calendar days and time labels -/

/-- The decimal digit character of `n % 10`. -/
def digitChar (n : Nat) : Char := Char.ofNat (48 + n % 10)

/-- The zero-padded decimal representation of `n` on `k` digits, most
significant digit first. -/
def fixedDigits : Nat → Nat → List Char
  | 0, _ => []
  | k + 1, n => digitChar (n / 10 ^ k) :: fixedDigits k (n % 10 ^ k)

/-- The number written by a sequence of decimal digits. -/
def parseDigits (cs : List Char) : Nat :=
  cs.foldl (fun acc c => acc * 10 + (c.toNat - 48)) 0

/-- Modelled from the spec: the pattern `regexputils.YYYYMMDD` is not part of
the sources at hand; the specification gives it as `^\d{8}$`, exactly eight
decimal digits. -/
def isYYYYMMDD (s : String) : Bool :=
  decide (s.data.length = 8) && s.data.all (fun c => decide (48 ≤ c.toNat) && decide (c.toNat ≤ 57))

/-- Gregorian leap years. -/
def isLeapYear (y : Nat) : Bool :=
  (decide (y % 4 = 0) && !decide (y % 100 = 0)) || decide (y % 400 = 0)

/-- The number of days of month `m` of year `y`. -/
def daysInMonth (y m : Nat) : Nat :=
  if m = 2 then (if isLeapYear y then 29 else 28)
  else if m = 4 ∨ m = 6 ∨ m = 9 ∨ m = 11 then 30
  else 31

/-- Whether the number `yyyymmdd` names a day of the calendar. -/
def isCalendarDay (n : Nat) : Bool :=
  decide (1 ≤ n / 100 % 100) && decide (n / 100 % 100 ≤ 12) &&
    decide (1 ≤ n % 100) && decide (n % 100 ≤ daysInMonth (n / 10000) (n / 100 % 100))

/-- Modelled from the spec: the helper `utils.RangeDays` is not part of the
sources at hand; the specification has it enumerate every calendar day in
`[dayFrom, dayTo]` in chronological order, each in `YYYYMMDD` form. -/
def RangeDays (dayFrom dayTo : String) : Except String (List String) :=
  if !isYYYYMMDD dayFrom then .error "invalid dayFrom"
  else if !isYYYYMMDD dayTo then .error "invalid dayTo"
  else
    .ok (((List.range' (parseDigits dayFrom.data)
        (parseDigits dayTo.data + 1 - parseDigits dayFrom.data)).filter isCalendarDay).map
      (fun n => String.mk (fixedDigits 8 n)))

/-- Modelled from the spec: the helper `utils.Range24HourTimes` is not part of
the sources at hand; the specification has it enumerate every time label of a
day aligned to the given number of minutes, zero-padded `HHMM`, in
chronological order (288 labels for 5 minutes). -/
def Range24HourTimes (minutes : Nat) : Except String (List String) :=
  .ok ((List.range (24 * 60 / minutes)).map
    (fun i => String.mk (fixedDigits 4 (i * minutes / 60 * 100 + i * minutes % 60))))

/-- A calendar date. -/
structure Date where
  year : Nat
  month : Nat
  day : Nat
deriving DecidableEq, Repr

/-- Whether a date is a day of the calendar in the years 1 to 9999. -/
def Date.valid (d : Date) : Bool :=
  decide (1 ≤ d.year) && decide (d.year ≤ 9999) && decide (1 ≤ d.month) && decide (d.month ≤ 12) &&
    decide (1 ≤ d.day) && decide (d.day ≤ daysInMonth d.year d.month)

/-- The previous calendar day. -/
def Date.prev (d : Date) : Date :=
  if 1 < d.day then { d with day := d.day - 1 }
  else if 1 < d.month then { d with month := d.month - 1, day := daysInMonth d.year (d.month - 1) }
  else { year := d.year - 1, month := 12, day := 31 }

/-- The library call `t.AddDate(0, 0, -n)` on the calendar date of `t`. -/
def Date.daysBefore : Nat → Date → Date
  | 0, d => d
  | n + 1, d => Date.daysBefore n d.prev

/-- The library call `timeutil.Format("Ymd", t)` on the calendar date of `t`. -/
def formatYmd (d : Date) : String :=
  String.mk (fixedDigits 8 (d.year * 10000 + d.month * 100 + d.day))

/-! ## Range report -/

/-- The response entry `pb.FindDailyServerBandwidthStatsBetweenDaysResponse_Stat`. -/
structure FindDailyServerBandwidthStatsBetweenDaysResponse_Stat where
  Bytes : Int
  Bits : Int
  Day : String
  TimeAt : String
deriving DecidableEq, Repr

/-- Two's complement wrap-around of Go's `int64` arithmetic. -/
def wrapInt64 (x : Int) : Int := (x + 2 ^ 63) % 2 ^ 64 - 2 ^ 63

/-- The composite key `day + "@" + timeAt`. -/
def compositeKey (day timeAt : String) : String := day ++ "@" ++ timeAt

/-- Whether an integer lies in the range of Go's `int64`. -/
def fitsInt64 (x : Int) : Bool := decide (-(2 : Int) ^ 63 ≤ x) && decide (x < 2 ^ 63)

/-- The library call `one.GetInt64("bytes")` on the result column
`SUM(bytes) AS bytes`. A sum in the range of `int64` is read exactly. For a
sum outside that range the call still returns an `int64`; which one is decided
by the conversion of the storage library and the platform, and is given here
by the argument `overflow`, reduced to the range of `int64`. -/
def GetInt64 (overflow : Int → Int) (x : Int) : Int :=
  if fitsInt64 x then x else wrapInt64 (overflow x)

/-- The entry built from one grouped row in the first loop of
`FindUserBandwidthStatsBetweenDays`: `bytes = one.GetInt64("bytes")`, and
`Bits: bytes * 8` in `int64`. -/
def statOf (overflow : Int → Int) (one : UserBandwidthStat) :
    FindDailyServerBandwidthStatsBetweenDaysResponse_Stat :=
  { Bytes := GetInt64 overflow one.Bytes, Bits := wrapInt64 (GetInt64 overflow one.Bytes * 8),
    Day := one.Day, TimeAt := one.TimeAt }

/-- The first loop of `FindUserBandwidthStatsBetweenDays`: the Go map `m` from
composite key to entry, as an association list in which a later assignment to
a key shadows an earlier one. -/
def buildMap (overflow : Int → Int) (ones : List UserBandwidthStat) :
    List (String × FindDailyServerBandwidthStatsBetweenDaysResponse_Stat) :=
  ones.foldl (fun m one => (compositeKey one.Day one.TimeAt, statOf overflow one) :: m) []

/-- The entry the walk emits for one bucket: `stat, ok := m[key]`, and the
zero-valued placeholder when the key is absent. -/
def entryOf (m : List (String × FindDailyServerBandwidthStatsBetweenDaysResponse_Stat))
    (day timeAt : String) : FindDailyServerBandwidthStatsBetweenDaysResponse_Stat :=
  match m.lookup (compositeKey day timeAt) with
  | some stat => stat
  | none => { Bytes := 0, Bits := 0, Day := day, TimeAt := timeAt }

/-- The inner loop `for _, timeAt := range dayTimes` with its `break`. -/
def timeLoop (m : List (String × FindDailyServerBandwidthStatsBetweenDaysResponse_Stat))
    (currentTime day : String) :
    List String → List FindDailyServerBandwidthStatsBetweenDaysResponse_Stat →
      List FindDailyServerBandwidthStatsBetweenDaysResponse_Stat
  | [], result => result
  | timeAt :: rest, result =>
    if strLe currentTime (compositeKey day timeAt) then result
    else
      match m.lookup (compositeKey day timeAt) with
      | some stat => timeLoop m currentTime day rest (result ++ [stat])
      | none =>
        timeLoop m currentTime day rest
          (result ++ [{ Bytes := 0, Bits := 0, Day := day, TimeAt := timeAt }])

/-- The outer loop `for _, day := range allDays`. -/
def dayLoop (m : List (String × FindDailyServerBandwidthStatsBetweenDaysResponse_Stat))
    (currentTime : String) (dayTimes : List String) :
    List String → List FindDailyServerBandwidthStatsBetweenDaysResponse_Stat →
      List FindDailyServerBandwidthStatsBetweenDaysResponse_Stat
  | [], result => result
  | day :: rest, result =>
    dayLoop m currentTime dayTimes rest (timeLoop m currentTime day dayTimes result)

/-- The method `FindUserBandwidthStatsBetweenDays`. The argument `currentTime`
is the value of `timeutil.Format("Ymd@Hi")`, the wall clock read by the call;
the argument `overflow` is what `GetInt64` makes of a sum outside `int64`. -/
def FindUserBandwidthStatsBetweenDays (overflow : Int → Int) (st : Store) (currentTime : String)
    (userId regionId : Int) (dayFrom dayTo : String) :
    Except String (List FindDailyServerBandwidthStatsBetweenDaysResponse_Stat) :=
  if userId ≤ 0 then .ok []
  else if !isYYYYMMDD dayFrom then .error ("invalid dayFrom '" ++ dayFrom ++ "'")
  else if !isYYYYMMDD dayTo then .error ("invalid dayTo '" ++ dayTo ++ "'")
  else
    let dayFrom1 := if strLt dayTo dayFrom then dayTo else dayFrom
    let dayTo1 := if strLt dayTo dayFrom then dayFrom else dayTo
    match Query st (partialTable userId) with
    | .error e => .error e
    | .ok t =>
      let ones := groupByDayTimeAt
        (whereRows t.rows (if regionId > 0 then some regionId else none) userId dayFrom1 dayTo1)
      let m := buildMap overflow ones
      match RangeDays dayFrom1 dayTo1 with
      | .error e => .error e
      | .ok allDays =>
        match Range24HourTimes 5 with
        | .error e => .error e
        | .ok dayTimes => .ok (dayLoop m currentTime dayTimes allDays [])

/-! ## The theoretical bucket sequence, as the specification words it -/

/-- Every calendar day of the range crossed with the 288 five-minute labels,
in chronological order. -/
def theoreticalBuckets (dayFrom dayTo : String) : List (String × String) :=
  match RangeDays dayFrom dayTo, Range24HourTimes 5 with
  | .ok days, .ok times => days.flatMap (fun d => times.map (fun t => (d, t)))
  | _, _ => []

/-- The stored samples of one bucket for a range report: the user's rows
(of the region, when `regionId > 0`) with that day and time label. -/
def bucketSamples (rows : List UserBandwidthStat) (userId regionId : Int)
    (b : String × String) : List UserBandwidthStat :=
  rows.filter (fun r => decide (r.UserId = userId) &&
    (if regionId > 0 then decide (r.RegionId = regionId) else true) &&
    decide (r.Day = b.1) && decide (r.TimeAt = b.2))

/-- The stored summed bytes of one bucket. -/
def bucketSum (rows : List UserBandwidthStat) (userId regionId : Int)
    (b : String × String) : Int :=
  ((bucketSamples rows userId regionId b).map (fun x => x.Bytes)).sum

/-- The report entry of one bucket: the summed bytes of its samples, or the
zero-valued placeholder when it has none. -/
def bucketEntry (rows : List UserBandwidthStat) (userId regionId : Int)
    (b : String × String) : FindDailyServerBandwidthStatsBetweenDaysResponse_Stat :=
  match bucketSamples rows userId regionId b with
  | [] => { Bytes := 0, Bits := 0, Day := b.1, TimeAt := b.2 }
  | r :: rs =>
    { Bytes := ((r :: rs).map (fun x => x.Bytes)).sum,
      Bits := wrapInt64 (((r :: rs).map (fun x => x.Bytes)).sum * 8),
      Day := b.1, TimeAt := b.2 }

/-! ## Fan-out, distinct users and retention -/

/-- The method `runBatch`: `f` runs once for every partition table. The
goroutines of the source are run here one after the other in loop order, each
on the state left by the previous one; all of them run whether or not one has
failed, and the error reported is the one assigned last. -/
def runBatch {σ : Type} (f : String → σ → σ × Option String) (init : σ) : σ × Option String :=
  runBatchTables.foldl
    (fun acc table =>
      match f table acc.1 with
      | (s, some e) => (s, some e)
      | (s, none) => (s, acc.2))
    (init, none)

/-- The library call `strings.ReplaceAll(s, "-", "")`. -/
def removeDashes (s : String) : String :=
  String.mk (s.data.filter (fun c => !decide (c = '-')))

/-- The query `Between("day", dayFrom, dayTo).Result("DISTINCT userId").FindAll()`
on one table. -/
def distinctUserIds (rows : List UserBandwidthStat) (dayFrom dayTo : String) : List Int :=
  ((rows.filter (fun r => strLe dayFrom r.Day && strLe r.Day dayTo)).map (fun r => r.UserId)).dedup

/-- The method `FindDistinctUserIds`, returning the two results `userIds` and
`err` of the source. -/
def FindDistinctUserIds (st : Store) (dayFrom dayTo : String) : List Int × Option String :=
  runBatch
    (fun table userIds =>
      match Query st table with
      | .error e => (userIds, some e)
      | .ok t =>
        (userIds ++ (distinctUserIds t.rows (removeDashes dayFrom) (removeDashes dayTo)).filter
          (fun userId => decide (userId > 0)), none))
    []

/-- The query `Lt("day", day).Delete()` on one table. -/
def deleteBefore (t : PartialTable) (day : String) : PartialTable :=
  { t with rows := t.rows.filter (fun r => !strLt r.Day day) }

/-- The method `Clean`, returning the store it leaves and its error. The
argument `now` is the calendar date of `time.Now()`. -/
def Clean (st : Store) (now : Date) : Store × Option String :=
  runBatch
    (fun table s =>
      match findTable table with
      | none => (s, some ("table '" ++ table ++ "' doesn't exist"))
      | some i => (Function.update s i (deleteBefore (s i) (formatYmd (Date.daysBefore 100 now))), none))
    st

/-- The stores that arise from the empty store by calls of `UpdateUserBandwidth`. -/
inductive Reachable : Store → Prop
  | empty : Reachable emptyStore
  | update (st st2 : Store) (userId regionId : Int) (day timeAt : String) (bytes : Int) :
      Reachable st → UpdateUserBandwidth st userId regionId day timeAt bytes = .ok st2 →
      Reachable st2

/-- The summed bytes of the rows of a list that fall in one bucket. -/
def sumFor (k : String × String) (l : List UserBandwidthStat) : Int :=
  ((l.filter (fun r => decide (bucketOf r = k))).map (fun r => r.Bytes)).sum

/-- Every stored row belongs to a positive user and lies in that user's shard. -/
def ShardInvariant (st : Store) : Prop :=
  ∀ i, ∀ r ∈ (st i).rows, 0 < r.UserId ∧ shardOf r.UserId = i

/-- The number of days of a common year before month `m`. -/
def daysBeforeMonth (m : Nat) : Nat :=
  match m with
  | 2 => 31 | 3 => 59 | 4 => 90 | 5 => 120 | 6 => 151 | 7 => 181
  | 8 => 212 | 9 => 243 | 10 => 273 | 11 => 304 | 12 => 334 | _ => 0

/-- A day count that a step to the previous day lowers by at most two. -/
def Date.ordinal (d : Date) : Nat := d.year * 366 + daysBeforeMonth d.month + d.day

/-- A day of the calendar in the years 0 to 9999. -/
def Date.wellFormed (d : Date) : Prop :=
  d.year ≤ 9999 ∧ 1 ≤ d.month ∧ d.month ≤ 12 ∧ 1 ≤ d.day ∧ d.day ≤ daysInMonth d.year d.month

/-- The report entry of one bucket as the code builds it: the summed bytes of
its samples read through `GetInt64`, or the zero-valued placeholder. -/
def readEntry (overflow : Int → Int) (rows : List UserBandwidthStat) (userId regionId : Int)
    (b : String × String) : FindDailyServerBandwidthStatsBetweenDaysResponse_Stat :=
  match bucketSamples rows userId regionId b with
  | [] => { Bytes := 0, Bits := 0, Day := b.1, TimeAt := b.2 }
  | r :: rs =>
    { Bytes := GetInt64 overflow ((r :: rs).map (fun x => x.Bytes)).sum,
      Bits := wrapInt64 (GetInt64 overflow ((r :: rs).map (fun x => x.Bytes)).sum * 8),
      Day := b.1, TimeAt := b.2 }

/-! ## Sample stores -/

/-- Five buckets with sums 50, 40, 30, 20, 10 for user 1 on one day; the last
bucket holds two samples from different regions. -/
def fiveBuckets : Store :=
  Function.update emptyStore 1
    { rows := [⟨1, 1, 0, "20240101", "0000", 30⟩, ⟨2, 1, 0, "20240101", "0005", 50⟩,
               ⟨3, 1, 0, "20240101", "0010", 10⟩, ⟨4, 1, 0, "20240101", "0015", 40⟩,
               ⟨5, 1, 0, "20240101", "0020", 15⟩, ⟨6, 1, 2, "20240101", "0020", 5⟩],
      autoIncrement := 7 }

/-- Three buckets with sums 10, 50, 30 for user 1. -/
def threeBuckets : Store :=
  Function.update emptyStore 1
    { rows := [⟨1, 1, 0, "20240101", "0000", 10⟩, ⟨2, 1, 0, "20240101", "0005", 50⟩,
               ⟨3, 1, 0, "20240102", "0000", 30⟩],
      autoIncrement := 4 }

/-- A single bucket for user 1. -/
def oneBucket : Store :=
  Function.update emptyStore 1
    { rows := [⟨1, 1, 0, "20240101", "0000", 70⟩], autoIncrement := 2 }

/-- The store after user 21 and then user 2 have each recorded one sample. -/
def twoUsers : Store :=
  Function.update
    (Function.update emptyStore (shardOf 21)
      (InsertOrUpdateQuickly (emptyStore (shardOf 21)) 21 0 "20240101" "0000" 100))
    (shardOf 2)
    (InsertOrUpdateQuickly
      ((Function.update emptyStore (shardOf 21)
        (InsertOrUpdateQuickly (emptyStore (shardOf 21)) 21 0 "20240101" "0000" 100)) (shardOf 2))
      2 0 "20240102" "0005" 7)

/-- A store with one sample on each side of the retention horizon of 10 April 2024. -/
def staleAndFresh : Store :=
  Function.update emptyStore 1
    { rows := [⟨1, 1, 0, "20231231", "2355", 9⟩, ⟨2, 1, 0, "20240101", "0000", 8⟩],
      autoIncrement := 3 }

/-- One reading of sums outside `int64`: each of them becomes the least
`int64`, as Go's conversion of a double to `int64` gives on amd64. -/
def overflowToMin : Int → Int := fun _ => -(2 : Int) ^ 63

/-- The store after user 1 has recorded `2^62` bytes for region 0 and `2^62`
bytes for region 1 in the bucket `("20240101", "0000")`: every stored row fits
`int64`, and the bucket sums to `2^63`. -/
def hugeBucket : Store :=
  Function.update
    (Function.update emptyStore (shardOf 1)
      (InsertOrUpdateQuickly (emptyStore (shardOf 1)) 1 0 "20240101" "0000" (2 ^ 62)))
    (shardOf 1)
    (InsertOrUpdateQuickly
      ((Function.update emptyStore (shardOf 1)
        (InsertOrUpdateQuickly (emptyStore (shardOf 1)) 1 0 "20240101" "0000" (2 ^ 62)))
          (shardOf 1))
      1 1 "20240101" "0000" (2 ^ 62))

/-- The summary of a range report: its length, whether every entry is
zero-valued on the given day, whether the time labels of neighbouring entries
ascend strictly, and the first and the last label. -/
def reportSummary (day : String)
    (r : Except String (List FindDailyServerBandwidthStatsBetweenDaysResponse_Stat)) :
    Option (Nat × Bool × Bool × Option String × Option String) :=
  match r with
  | .error _ => none
  | .ok result =>
    some (result.length,
      result.all (fun e => decide (e.Bytes = 0) && decide (e.Bits = 0) && decide (e.Day = day)),
      (result.zip result.tail).all (fun p => strLt p.1.TimeAt p.2.TimeAt),
      result.head?.map (fun e => e.TimeAt), result.getLast?.map (fun e => e.TimeAt))

/-! # Theorems -/

/-! ## Router lemmas -/

theorem findTable_partialTable_fin :
    ∀ i : Fin UserBandwidthStatTablePartials, findTable (partialTable ((i : Nat) : Int)) = some i := by
  decide

theorem partialTable_of_nonneg (userId : Int) (h : 0 ≤ userId) :
    partialTable userId = partialTable (((shardOf userId : Fin _) : Nat) : Int) := by
  have h1 : userId % 20 < 20 := Int.emod_lt_of_pos _ (by norm_num)
  have h2 : 0 ≤ userId % 20 := Int.emod_nonneg _ (by norm_num)
  have h3 : Int.tmod userId 20 = userId % 20 := Int.tmod_eq_emod h (by norm_num)
  have h4 : (((shardOf userId : Fin _) : Nat) : Int) = userId % 20 := by
    show (((userId % 20).toNat : Nat) : Int) = userId % 20
    exact Int.toNat_of_nonneg h2
  have h5 : Int.tmod (userId % 20) 20 = userId % 20 := by
    rw [Int.tmod_eq_emod h2 (by norm_num)]
    exact Int.emod_emod_of_dvd _ (dvd_refl _)
  unfold partialTable
  rw [h4]
  show Table ++ "_" ++ toString (Int.tmod userId 20) = Table ++ "_" ++ toString (Int.tmod (userId % 20) 20)
  rw [h3, h5]

theorem findTable_partialTable (userId : Int) (h : 0 ≤ userId) :
    findTable (partialTable userId) = some (shardOf userId) := by
  rw [partialTable_of_nonneg userId h]
  exact findTable_partialTable_fin _

theorem sumFor_nil (k : String × String) : sumFor k [] = 0 := rfl

theorem sumFor_cons (k : String × String) (r : UserBandwidthStat) (l : List UserBandwidthStat) :
    sumFor k (r :: l) = (if bucketOf r = k then r.Bytes else 0) + sumFor k l := by
  unfold sumFor
  by_cases h : bucketOf r = k
  · simp [List.filter_cons, h]
  · simp [List.filter_cons, h]

theorem sumFor_addToGroup (k : String × String) (r : UserBandwidthStat) :
    ∀ gs : List UserBandwidthStat,
      sumFor k (addToGroup gs r) = sumFor k gs + (if bucketOf r = k then r.Bytes else 0)
  | [] => by
    simp only [addToGroup, sumFor_cons, sumFor_nil]
    have : bucketOf { r with RegionId := 0 } = bucketOf r := rfl
    rw [this]; ring
  | g :: gs => by
    unfold addToGroup
    by_cases h : bucketOf g = bucketOf r
    · rw [if_pos h]
      simp only [sumFor_cons]
      change (if bucketOf g = k then g.Bytes + r.Bytes else 0) + sumFor k gs = _
      rw [h]
      by_cases hk : bucketOf r = k
      · simp [hk]; ring
      · simp [hk]
    · rw [if_neg h]
      simp only [sumFor_cons]
      rw [sumFor_addToGroup k r gs]; ring

theorem map_bucketOf_addToGroup (r : UserBandwidthStat) :
    ∀ gs : List UserBandwidthStat,
      (addToGroup gs r).map bucketOf =
        if bucketOf r ∈ gs.map bucketOf then gs.map bucketOf
        else gs.map bucketOf ++ [bucketOf r]
  | [] => by simp [addToGroup, bucketOf]
  | g :: gs => by
    unfold addToGroup
    by_cases h : bucketOf g = bucketOf r
    · rw [if_pos h]
      simp only [List.map_cons]
      change bucketOf g :: gs.map bucketOf = _
      simp [h]
    · rw [if_neg h]
      have h' : ¬ bucketOf r = bucketOf g := fun e => h e.symm
      simp only [List.map_cons, List.mem_cons, h', false_or]
      rw [map_bucketOf_addToGroup r gs]
      by_cases hm : bucketOf r ∈ gs.map bucketOf
      · simp [hm]
      · simp [hm]

theorem foldl_addToGroup_spec (rows : List UserBandwidthStat) :
    ∀ gs : List UserBandwidthStat, (gs.map bucketOf).Nodup →
      ((rows.foldl addToGroup gs).map bucketOf).Nodup ∧
      (∀ k, k ∈ (rows.foldl addToGroup gs).map bucketOf ↔
        k ∈ gs.map bucketOf ∨ k ∈ rows.map bucketOf) ∧
      (∀ k, sumFor k (rows.foldl addToGroup gs) = sumFor k gs + sumFor k rows) := by
  induction rows with
  | nil => intro gs h; simp [sumFor_nil, h]
  | cons r rows ih =>
    intro gs h
    have hnd : ((addToGroup gs r).map bucketOf).Nodup := by
      rw [map_bucketOf_addToGroup]
      by_cases hm : bucketOf r ∈ gs.map bucketOf
      · rw [if_pos hm]; exact h
      · rw [if_neg hm]
        exact List.Nodup.append h (List.nodup_singleton _) (by simpa using hm)
    obtain ⟨h1, h2, h3⟩ := ih (addToGroup gs r) hnd
    refine ⟨h1, ?_, ?_⟩
    · intro k
      rw [List.foldl_cons, h2 k, map_bucketOf_addToGroup]
      by_cases hm : bucketOf r ∈ gs.map bucketOf
      · rw [if_pos hm]
        simp only [List.map_cons, List.mem_cons]
        constructor
        · rintro (a | a)
          · exact Or.inl a
          · exact Or.inr (Or.inr a)
        · rintro (a | a | a)
          · exact Or.inl a
          · exact Or.inl (a ▸ hm)
          · exact Or.inr a
      · rw [if_neg hm]
        simp only [List.map_cons, List.mem_cons, List.mem_append, List.mem_singleton]
        tauto
    · intro k
      rw [List.foldl_cons, h3 k, sumFor_addToGroup, sumFor_cons]; ring

theorem sumFor_of_mem_nodup :
    ∀ (l : List UserBandwidthStat), (l.map bucketOf).Nodup → ∀ g ∈ l,
      sumFor (bucketOf g) l = g.Bytes
  | [], _, g, hg => by simp at hg
  | x :: l, hnd, g, hg => by
    rw [List.map_cons, List.nodup_cons] at hnd
    rw [sumFor_cons]
    rcases List.mem_cons.1 hg with rfl | hmem
    · have : sumFor (bucketOf g) l = 0 := by
        unfold sumFor
        have : l.filter (fun r => decide (bucketOf r = bucketOf g)) = [] := by
          rw [List.filter_eq_nil_iff]
          intro a ha hEq
          exact hnd.1 ((of_decide_eq_true hEq) ▸ List.mem_map_of_mem bucketOf ha)
        rw [this]; rfl
      simp [this]
    · have hne : bucketOf x ≠ bucketOf g := by
        intro e
        exact hnd.1 (e ▸ List.mem_map_of_mem bucketOf hmem)
      rw [if_neg hne, sumFor_of_mem_nodup l hnd.2 g hmem]; simp

theorem ceilDiv100_eq_ceil (x : Int) : ceilDiv100 x = ⌈((x : ℚ)) / 100⌉ := by
  unfold ceilDiv100
  have h1 : ⌈((x : ℚ)) / 100⌉ = -⌊-(((x : ℚ)) / 100)⌋ := by
    rw [Int.floor_neg]; simp
  have h2 : -(((x : ℚ)) / 100) = (((-x : Int) : ℚ)) / ((100 : ℕ) : ℚ) := by
    push_cast; ring
  rw [h1, h2, Rat.floor_intCast_div_natCast]
  rfl

theorem whereRows_eq_filter_rankMatches (rows : List UserBandwidthStat) (userId regionId : Int)
    (dayFrom dayTo : String) :
    whereRows rows (percentileRegion regionId) userId
      (if strLt dayTo dayFrom then dayTo else dayFrom)
      (if strLt dayTo dayFrom then dayFrom else dayTo) =
    rows.filter (rankMatches userId regionId dayFrom dayTo) := by
  unfold whereRows
  apply List.filter_congr
  intro r _
  unfold rankMatches percentileRegion matchesRegion
  by_cases h1 : regionId > 0
  · simp only [h1, if_true]
    cases decide (r.RegionId = regionId) <;> cases decide (r.UserId = userId) <;> simp
  · by_cases h2 : regionId < 0
    · simp only [h1, h2, if_true, if_false]
      cases decide (r.RegionId = 0) <;> cases decide (r.UserId = userId) <;> simp
    · simp only [h1, h2, if_false]
      cases decide (r.UserId = userId) <;> simp

theorem mem_orderByBytesDesc (l : List UserBandwidthStat) (b : UserBandwidthStat) :
    b ∈ orderByBytesDesc l ↔ b ∈ l :=
  (List.perm_insertionSort _ l).mem_iff

theorem sorted_map_bytes_orderByBytesDesc (l : List UserBandwidthStat) :
    ((orderByBytesDesc l).map (fun r => r.Bytes)).Sorted (fun a b => a ≥ b) := by
  haveI : IsTotal UserBandwidthStat (fun a b => a.Bytes ≥ b.Bytes) :=
    ⟨fun a b => le_total b.Bytes a.Bytes⟩
  haveI : IsTrans UserBandwidthStat (fun a b => a.Bytes ≥ b.Bytes) :=
    ⟨fun a b c h1 h2 => le_trans h2 h1⟩
  have h := List.sorted_insertionSort (fun a b : UserBandwidthStat => a.Bytes ≥ b.Bytes) l
  unfold orderByBytesDesc
  exact List.pairwise_map.2 h

/-- Grouping the rows, ordering the groups by descending sum and reading the
sums gives the bucket sums sorted descending. -/
theorem map_bytes_order_group (R : List UserBandwidthStat) :
    (orderByBytesDesc (groupByDayTimeAt R)).map (fun r => r.Bytes) =
      (((R.map bucketOf).dedup).map (fun b => sumFor b R)).insertionSort (fun a b => a ≥ b) := by
  obtain ⟨hnd, hmem, hsum⟩ := foldl_addToGroup_spec R [] (by simp)
  have hG : (groupByDayTimeAt R).map (fun r => r.Bytes) =
      ((groupByDayTimeAt R).map bucketOf).map (fun b => sumFor b R) := by
    rw [List.map_map]
    apply List.map_congr_left
    intro g hg
    have h1 := sumFor_of_mem_nodup (groupByDayTimeAt R) hnd g hg
    have h2 := hsum (bucketOf g)
    simp only [sumFor_nil, zero_add] at h2
    show g.Bytes = sumFor (bucketOf g) R
    rw [← h2]; exact h1.symm
  have hperm : ((groupByDayTimeAt R).map bucketOf).Perm ((R.map bucketOf).dedup) := by
    refine (List.perm_ext_iff_of_nodup hnd (List.nodup_dedup _)).2 ?_
    intro k
    show k ∈ List.map bucketOf (List.foldl addToGroup [] R) ↔ _
    rw [List.mem_dedup]
    have := hmem k
    simpa using this
  have hp1 : ((orderByBytesDesc (groupByDayTimeAt R)).map (fun r => r.Bytes)).Perm
      (((R.map bucketOf).dedup).map (fun b => sumFor b R)) := by
    refine List.Perm.trans (List.Perm.map _ (List.perm_insertionSort _ _)) ?_
    rw [hG]
    exact List.Perm.map _ hperm
  have hp2 := List.perm_insertionSort (fun a b : Int => a ≥ b)
    (((R.map bucketOf).dedup).map (fun b => sumFor b R))
  haveI : IsAntisymm Int (fun a b => a ≥ b) := ⟨fun a b h1 h2 => le_antisymm h2 h1⟩
  exact List.eq_of_perm_of_sorted (hp1.trans hp2.symm)
    (sorted_map_bytes_orderByBytesDesc _) (List.sorted_insertionSort _ _)

theorem mem_group_spec (R : List UserBandwidthStat) (b : UserBandwidthStat)
    (hb : b ∈ groupByDayTimeAt R) :
    bucketOf b ∈ (R.map bucketOf).dedup ∧ b.Bytes = sumFor (bucketOf b) R := by
  obtain ⟨hnd, hmem, hsum⟩ := foldl_addToGroup_spec R [] (by simp)
  constructor
  · rw [List.mem_dedup]
    have := (hmem (bucketOf b)).1 (List.mem_map_of_mem bucketOf (show b ∈ List.foldl addToGroup [] R from hb))
    simpa using this
  · have h1 := sumFor_of_mem_nodup (groupByDayTimeAt R) hnd b hb
    have h2 := hsum (bucketOf b)
    simp only [sumFor_nil, zero_add] at h2
    rw [← h2]; exact h1.symm

theorem Query_partialTable (st : Store) (userId : Int) (h : 0 ≤ userId) :
    Query st (partialTable userId) = .ok (st (shardOf userId)) := by
  unfold Query
  rw [findTable_partialTable userId h]

theorem rankSortedSums_eq (rows : List UserBandwidthStat) (userId regionId : Int)
    (dayFrom dayTo : String) :
    rankSortedSums rows userId regionId dayFrom dayTo =
      (orderByBytesDesc (groupByDayTimeAt
        (rows.filter (rankMatches userId regionId dayFrom dayTo)))).map (fun r => r.Bytes) := by
  rw [map_bytes_order_group]
  rfl

theorem length_rankSortedSums (rows : List UserBandwidthStat) (userId regionId : Int)
    (dayFrom dayTo : String) :
    (rankSortedSums rows userId regionId dayFrom dayTo).length =
      (rankBuckets rows userId regionId dayFrom dayTo).length := by
  unfold rankSortedSums
  rw [List.length_insertionSort, List.length_map]

theorem percentileOffset_toNat (n : Nat) (p : Int) (hn : n ≠ 0) (hp0 : 0 < p) (hp : p < 100) :
    (percentileOffset (n : Int) p).toNat = rankOffset n p := by
  unfold percentileOffset rankOffset
  have hp' : ¬ p ≤ 0 := by omega
  have hp100 : ¬ p ≥ 100 := by omega
  simp only [hp', if_false, hp100, false_or]
  by_cases h1 : n = 1
  · subst h1; simp
  · have : ((n : Int) > 1) := by omega
    rw [if_pos this, if_neg h1, ceilDiv100_eq_ceil]
    push_cast
    rfl

/-- The result of `FindPercentileBetweenDays` for a tenant whose table exists, in
terms of the bucket sums sorted descending. -/
theorem FindPercentileBetweenDays_spec (st : Store) (userId regionId : Int)
    (dayFrom dayTo : String) (percentile : Int) (hUser : 0 ≤ userId) :
    ∃ res, FindPercentileBetweenDays st userId regionId dayFrom dayTo percentile = .ok res ∧
      ((rankBuckets (st (shardOf userId)).rows userId regionId dayFrom dayTo).length = 0 →
        res = none) ∧
      res.map (fun b => b.Bytes) =
        (rankSortedSums (st (shardOf userId)).rows userId regionId dayFrom dayTo)[
          rankOffset (rankBuckets (st (shardOf userId)).rows userId regionId dayFrom dayTo).length
            percentile]? ∧
      (∀ b, res = some b →
        bucketOf b ∈ rankBuckets (st (shardOf userId)).rows userId regionId dayFrom dayTo ∧
        b.Bytes = rankBucketSum (st (shardOf userId)).rows userId regionId dayFrom dayTo
          (bucketOf b)) := by
  set rows := (st (shardOf userId)).rows with hrows
  set R := rows.filter (rankMatches userId regionId dayFrom dayTo) with hR
  set G := orderByBytesDesc (groupByDayTimeAt R) with hG
  have hS : rankSortedSums rows userId regionId dayFrom dayTo = G.map (fun r => r.Bytes) :=
    rankSortedSums_eq rows userId regionId dayFrom dayTo
  have hlen : G.length = (rankBuckets rows userId regionId dayFrom dayTo).length := by
    rw [← length_rankSortedSums, hS, List.length_map]
  have hmemG : ∀ b, b ∈ G →
      bucketOf b ∈ rankBuckets rows userId regionId dayFrom dayTo ∧
        b.Bytes = rankBucketSum rows userId regionId dayFrom dayTo (bucketOf b) := by
    intro b hb
    exact mem_group_spec R b ((mem_orderByBytesDesc _ b).1 hb)
  have key : ∀ k : Nat, k = rankOffset (rankBuckets rows userId regionId dayFrom dayTo).length
        percentile →
      ((rankBuckets rows userId regionId dayFrom dayTo).length = 0 → (G.drop k).head? = none) ∧
      ((G.drop k).head?).map (fun b => b.Bytes) =
        (rankSortedSums rows userId regionId dayFrom dayTo)[rankOffset
          (rankBuckets rows userId regionId dayFrom dayTo).length percentile]? ∧
      (∀ b, (G.drop k).head? = some b →
        bucketOf b ∈ rankBuckets rows userId regionId dayFrom dayTo ∧
        b.Bytes = rankBucketSum rows userId regionId dayFrom dayTo (bucketOf b)) := by
    intro k hk
    refine ⟨?_, ?_, ?_⟩
    · intro h0
      have : G = [] := List.length_eq_zero.1 (hlen.trans h0)
      rw [this]; simp
    · rw [hS, List.getElem?_map, List.head?_drop, hk]
    · intro b hb
      rw [List.head?_drop] at hb
      exact hmemG b (List.getElem?_mem hb)
  unfold FindPercentileBetweenDays
  simp only [Query_partialTable st userId hUser, whereRows_eq_filter_rankMatches]
  by_cases hfast : (if percentile ≤ 0 then (95 : Int) else percentile) ≥ 100
  · rw [if_pos hfast]
    refine ⟨_, rfl, ?_⟩
    have hoff : rankOffset (rankBuckets rows userId regionId dayFrom dayTo).length percentile = 0 := by
      unfold rankOffset
      simp only [hfast, true_or, if_true]
    have := key 0 hoff.symm
    simpa using this
  · rw [if_neg hfast]
    have hcount : countDistinctDayTimeAt R =
        ((rankBuckets rows userId regionId dayFrom dayTo).length : Int) := rfl
    simp only [← hrows, ← hR, hcount]
    by_cases h0 : (rankBuckets rows userId regionId dayFrom dayTo).length = 0
    · have hz : (((rankBuckets rows userId regionId dayFrom dayTo).length : Int) = 0) := by
        exact_mod_cast h0
      rw [if_pos hz]
      refine ⟨none, rfl, fun _ => rfl, ?_, ?_⟩
      · have : (rankSortedSums rows userId regionId dayFrom dayTo) = [] :=
          List.length_eq_zero.1 ((length_rankSortedSums rows userId regionId dayFrom dayTo).trans h0)
        rw [this]; simp
      · intro b hb; cases hb
    · have hz : ¬ (((rankBuckets rows userId regionId dayFrom dayTo).length : Int) = 0) := by
        exact_mod_cast h0
      rw [if_neg hz]
      refine ⟨_, rfl, ?_⟩
      by_cases hp : percentile ≤ 0
      · have hk := percentileOffset_toNat
          (rankBuckets rows userId regionId dayFrom dayTo).length 95 h0 (by norm_num) (by norm_num)
        have hro : rankOffset (rankBuckets rows userId regionId dayFrom dayTo).length 95 =
            rankOffset (rankBuckets rows userId regionId dayFrom dayTo).length percentile := by
          unfold rankOffset; simp [hp]
        simp only [hp, if_true]
        exact key _ (hk.trans hro)
      · have hlt : percentile < 100 := by
          simp only [hp, if_false] at hfast; omega
        have hk := percentileOffset_toNat
          (rankBuckets rows userId regionId dayFrom dayTo).length percentile h0 (by omega) hlt
        simp only [hp, if_false]
        exact key _ hk

/-! ### The offset in double precision -/

theorem roundHalfEven_bounds (num : Nat) :
    num ≤ 100 * roundHalfEven num 100 + 50 ∧ 100 * roundHalfEven num 100 ≤ num + 50 ∧
      (num % 100 = 0 → roundHalfEven num 100 = num / 100) := by
  unfold roundHalfEven
  have h := Nat.div_add_mod num 100
  have hr : num % 100 < 100 := Nat.mod_lt _ (by norm_num)
  split_ifs <;> refine ⟨?_, ?_, ?_⟩ <;> omega

theorem scaleExponent_spec (x : Nat) (hx : 0 < x) :
    ∀ (fuel e : Nat), 64 ≤ fuel + e → (∀ k, k < e → x * 2 ^ k < 100 * 2 ^ 52) →
      100 * 2 ^ 52 ≤ x * 2 ^ scaleExponent x fuel e ∧
        ∀ k, k < scaleExponent x fuel e → x * 2 ^ k < 100 * 2 ^ 52
  | 0, e, hfe, hlow => by
    refine ⟨?_, hlow⟩
    show 100 * 2 ^ 52 ≤ x * 2 ^ e
    have h64 : (2:Nat) ^ 64 ≤ 2 ^ e := Nat.pow_le_pow_right (by norm_num) (by omega)
    have : 1 * 2 ^ 64 ≤ x * 2 ^ e := Nat.mul_le_mul hx h64
    have : (100 : Nat) * 2 ^ 52 ≤ 2 ^ 64 := by norm_num
    omega
  | fuel + 1, e, hfe, hlow => by
    unfold scaleExponent
    by_cases h : 100 * 2 ^ 52 ≤ x * 2 ^ e
    · rw [if_pos h]; exact ⟨h, hlow⟩
    · rw [if_neg h]
      apply scaleExponent_spec x hx fuel (e + 1) (by omega)
      intro k hk
      rcases Nat.lt_succ_iff_lt_or_eq.1 hk with hk | rfl
      · exact hlow k hk
      · omega

theorem float64CeilDiv100_eq (x : Nat) (hx : 0 < x) (hlt : x < 2 ^ 53) :
    (float64CeilDiv100 x : Int) = ceilDiv100 (x : Int) := by
  obtain ⟨hE, hlow⟩ := scaleExponent_spec x hx 64 0 (by norm_num) (fun k hk => by omega)
  have he : 6 ≤ scaleExponent x 64 0 := by
    by_contra hcon
    have hle : scaleExponent x 64 0 ≤ 5 := by omega
    have h1 : (2:Nat) ^ scaleExponent x 64 0 ≤ 2 ^ 5 := Nat.pow_le_pow_right (by norm_num) hle
    have h2 : x * 2 ^ scaleExponent x 64 0 ≤ x * 2 ^ 5 := Nat.mul_le_mul_left _ h1
    have h3 : x * 2 ^ 5 < 2 ^ 53 * 2 ^ 5 := Nat.mul_lt_mul_of_pos_right hlt (by norm_num)
    have h4 : (2:Nat) ^ 53 * 2 ^ 5 ≤ 100 * 2 ^ 52 := by norm_num
    omega
  have hE64 : 64 ≤ 2 ^ scaleExponent x 64 0 := by
    have : (2:Nat) ^ 6 ≤ 2 ^ scaleExponent x 64 0 := Nat.pow_le_pow_right (by norm_num) he
    simpa using this
  unfold float64CeilDiv100
  generalize 2 ^ scaleExponent x 64 0 = E at hE64
  obtain ⟨hb1, hb2, hb3⟩ := roundHalfEven_bounds (x * E)
  generalize roundHalfEven (x * E) 100 = m at hb1 hb2 hb3
  have hxd := Nat.div_add_mod x 100
  have hr : x % 100 < 100 := Nat.mod_lt _ (by norm_num)
  have hc : ceilDiv100 (x : Int) = ((x + 99) / 100 : Nat) := by
    unfold ceilDiv100; omega
  rw [hc]
  congr 1
  set k := x / 100 with hk
  set r := x % 100 with hrdef
  have hxE : x * E = 100 * (k * E) + r * E := by
    rw [← hxd]; ring
  by_cases hr0 : r = 0
  · have hmod : x * E % 100 = 0 := by
      rw [hxE, hr0]; simp
    have hm : m = k * E := by
      rw [hb3 hmod, hxE, hr0]; simp
    rw [hm]
    have h1 : (k * E + E - 1) / E = k := by
      apply Nat.div_eq_of_lt_le
      · omega
      · have : (k + 1) * E = k * E + E := by ring
        omega
    have h2 : (x + 99) / 100 = k := by omega
    rw [h1, h2]
  · have hrE1 : 1 * E ≤ r * E := Nat.mul_le_mul_right _ (by omega)
    have hrE2 : r * E ≤ 99 * E := Nat.mul_le_mul_right _ (by omega)
    have hlo : k * E < m := by
      by_contra hcon
      have : m ≤ k * E := by omega
      omega
    have hhi : m ≤ k * E + E := by
      by_contra hcon
      have : k * E + E + 1 ≤ m := by omega
      omega
    have h1 : (m + E - 1) / E = k + 1 := by
      apply Nat.div_eq_of_lt_le
      · have : (k + 1) * E = k * E + E := by ring
        omega
      · have : (k + 1 + 1) * E = k * E + E + E := by ring
        omega
    have h2 : (x + 99) / 100 = k + 1 := by omega
    rw [h1, h2]

/-- The offset of the general path as the source computes it in double
precision, for every bucket count whose product with `100 - percentile` stays
below `2^53`. -/
theorem percentileOffset_eq_float64 (total percentile : Int) (hTotal : 1 < total)
    (hp1 : 1 ≤ percentile) (hp2 : percentile ≤ 99)
    (hRange : total * (100 - percentile) < 2 ^ 53) :
    percentileOffset total percentile =
      (float64CeilDiv100 (total * (100 - percentile)).toNat : Int) := by
  have hpos : 0 < total * (100 - percentile) := mul_pos (by omega) (by omega)
  have hx : 0 < (total * (100 - percentile)).toNat := by omega
  have hlt : (total * (100 - percentile)).toNat < 2 ^ 53 := by
    have : ((total * (100 - percentile)).toNat : Int) < 2 ^ 53 := by
      rw [Int.toNat_of_nonneg (le_of_lt hpos)]; exact hRange
    exact_mod_cast this
  rw [float64CeilDiv100_eq _ hx hlt, Int.toNat_of_nonneg (le_of_lt hpos)]
  unfold percentileOffset
  rw [if_pos hTotal]

/-! ### How many buckets lie at or below the selected one -/

theorem length_filter_le_of_sorted_desc :
    ∀ (S : List Int) (k : Nat) (v : Int), S.Sorted (fun a b => a ≥ b) → S[k]? = some v →
      S.length - k ≤ (S.filter (fun x => decide (x ≤ v))).length := by
  intro S k v hs hk
  have hsplit : S = S.take k ++ S.drop k := (List.take_append_drop k S).symm
  have hdrop : ∀ x ∈ S.drop k, x ≤ v := by
    have hd : (S.drop k).Sorted (fun a b => a ≥ b) := by
      have := hs
      rw [hsplit] at this
      exact (List.pairwise_append.1 this).2.1
    have hh : (S.drop k).head? = some v := by rw [List.head?_drop]; exact hk
    intro x hx
    cases hl : S.drop k with
    | nil => rw [hl] at hx; cases hx
    | cons y ys =>
      rw [hl] at hh hd hx
      simp only [List.head?_cons, Option.some.injEq] at hh
      subst hh
      rcases List.mem_cons.1 hx with rfl | hx
      · exact le_refl _
      · exact (List.pairwise_cons.1 hd).1 x hx
  have hf : (S.drop k).filter (fun x => decide (x ≤ v)) = S.drop k := by
    rw [List.filter_eq_self]
    intro x hx
    exact decide_eq_true (hdrop x hx)
  calc S.length - k = (S.drop k).length := by rw [List.length_drop]
    _ = ((S.drop k).filter (fun x => decide (x ≤ v))).length := by rw [hf]
    _ ≤ (S.filter (fun x => decide (x ≤ v))).length := by
        conv_rhs => rw [hsplit, List.filter_append, List.length_append]
        exact Nat.le_add_left _ _

theorem bucketsAtMost_eq (rows : List UserBandwidthStat) (userId regionId : Int)
    (dayFrom dayTo : String) (v : Int) :
    bucketsAtMost rows userId regionId dayFrom dayTo v =
      ((rankSortedSums rows userId regionId dayFrom dayTo).filter
        (fun x => decide (x ≤ v))).length := by
  unfold bucketsAtMost rankSortedSums
  have hp := List.perm_insertionSort (fun a b : Int => a ≥ b)
    ((rankBuckets rows userId regionId dayFrom dayTo).map
      (rankBucketSum rows userId regionId dayFrom dayTo))
  rw [(hp.filter _).length_eq, List.filter_map, List.length_map]
  rfl

theorem sorted_rankSortedSums (rows : List UserBandwidthStat) (userId regionId : Int)
    (dayFrom dayTo : String) :
    (rankSortedSums rows userId regionId dayFrom dayTo).Sorted (fun a b => a ≥ b) := by
  unfold rankSortedSums
  exact List.sorted_insertionSort _ _

theorem rankOffset_bound (n : Nat) (p : Int) (hn : n ≠ 0) (h1 : 1 ≤ p) (h2 : p ≤ 99) :
    100 * (rankOffset n p : Int) < (n : Int) * (100 - p) + 100 := by
  rw [← percentileOffset_toNat n p hn (by omega) (by omega)]
  unfold percentileOffset ceilDiv100
  by_cases hgt : (n : Int) > 1
  · rw [if_pos hgt]
    have hnn : (0 : Int) ≤ -(-((n : Int) * (100 - p)) / 100) := by
      have : (0:Int) ≤ (n : Int) * (100 - p) :=
        mul_nonneg (Int.natCast_nonneg n) (by omega)
      omega
    rw [Int.toNat_of_nonneg hnn]
    omega
  · rw [if_neg hgt]
    simp only [Int.toNat_zero, Nat.cast_zero, mul_zero]
    have : (0:Int) ≤ (n : Int) * (100 - p) :=
      mul_nonneg (Int.natCast_nonneg n) (by omega)
    omega

/-- Claim C2, amended: for a tenant id that is not negative and a percentile
`p` in 1..99, if the call returns a bucket with summed bytes `v`, then at
least `n - ceil(n * (100 - p) / 100)` of the `n` matching buckets, that is
`floor(n * p / 100)` of them, have summed bytes `<= v`; so
`100 * (|{buckets with sum <= v}| + 1) > p * n`: the selected value can miss
the share of `p` percent by less than one bucket. -/
theorem FindPercentileBetweenDays_rank_bound (st : Store) (userId regionId : Int)
    (dayFrom dayTo : String) (percentile : Int) (b : UserBandwidthStat)
    (hUser : 0 ≤ userId) (h1 : 1 ≤ percentile) (h2 : percentile ≤ 99)
    (hres : FindPercentileBetweenDays st userId regionId dayFrom dayTo percentile = .ok (some b)) :
    (rankBuckets (st (shardOf userId)).rows userId regionId dayFrom dayTo).length -
        rankOffset (rankBuckets (st (shardOf userId)).rows userId regionId dayFrom dayTo).length
          percentile ≤
      bucketsAtMost (st (shardOf userId)).rows userId regionId dayFrom dayTo b.Bytes ∧
    percentile * ((rankBuckets (st (shardOf userId)).rows userId regionId dayFrom dayTo).length : Int) <
      100 * ((bucketsAtMost (st (shardOf userId)).rows userId regionId dayFrom dayTo b.Bytes : Int) + 1) := by
  obtain ⟨res, heq, _, hmap, _⟩ :=
    FindPercentileBetweenDays_spec st userId regionId dayFrom dayTo percentile hUser
  rw [hres] at heq
  injection heq with heq
  subst heq
  simp only [Option.map_some'] at hmap
  have hle := length_filter_le_of_sorted_desc _ _ _
    (sorted_rankSortedSums (st (shardOf userId)).rows userId regionId dayFrom dayTo) hmap.symm
  rw [← bucketsAtMost_eq, length_rankSortedSums] at hle
  refine ⟨hle, ?_⟩
  have hklt : rankOffset (rankBuckets (st (shardOf userId)).rows userId regionId dayFrom dayTo).length
      percentile < (rankBuckets (st (shardOf userId)).rows userId regionId dayFrom dayTo).length := by
    have := (List.getElem?_eq_some.1 hmap.symm).1
    rwa [length_rankSortedSums] at this
  have hn : (rankBuckets (st (shardOf userId)).rows userId regionId dayFrom dayTo).length ≠ 0 := by
    omega
  have hb := rankOffset_bound _ percentile hn h1 h2
  generalize (rankBuckets (st (shardOf userId)).rows userId regionId dayFrom dayTo).length = n at *
  generalize rankOffset n percentile = k at *
  generalize bucketsAtMost (st (shardOf userId)).rows userId regionId dayFrom dayTo b.Bytes = c at *
  have e : (n : Int) * (100 - percentile) = 100 * n - percentile * n := by ring
  rw [e] at hb
  have hle' : (n : Int) - k ≤ c := by omega
  linarith

theorem percentileOffset_lt_iff (n p : Int) (hn : 1 ≤ n) (_h1 : 1 ≤ p) (_h2 : p ≤ 99) :
    percentileOffset n p < n ↔ (n = 1 ∨ 100 ≤ n * p) := by
  unfold percentileOffset ceilDiv100
  by_cases hgt : n > 1
  · rw [if_pos hgt]
    have e : n * (100 - p) = 100 * n - n * p := by ring
    rw [e]
    constructor
    · intro h; right; omega
    · rintro (h | h)
      · omega
      · omega
  · rw [if_neg hgt]
    constructor
    · intro _; left; omega
    · intro _; omega

/-! ### Router and sample writer -/

theorem partialTable_mem_runBatchTables (userId : Int) (h : 0 ≤ userId) :
    partialTable userId ∈ runBatchTables := by
  rw [partialTable_of_nonneg userId h]
  unfold runBatchTables
  exact List.mem_map.2 ⟨((shardOf userId : Fin _) : Nat), List.mem_range.2 (shardOf userId).2, rfl⟩

theorem sameKey_incr (u r : Int) (d t : String) (c : Int) (x : UserBandwidthStat) :
    sameKey u r d t { x with Bytes := x.Bytes + c } = sameKey u r d t x := rfl

theorem incrementFirst_incrementFirst (u r : Int) (d t : String) (a b : Int) :
    ∀ rows : List UserBandwidthStat,
      incrementFirst (sameKey u r d t) b (incrementFirst (sameKey u r d t) a rows) =
        incrementFirst (sameKey u r d t) (a + b) rows
  | [] => rfl
  | x :: rows => by
    cases h : sameKey u r d t x
    · simp only [incrementFirst, h, if_false, Bool.false_eq_true]
      rw [incrementFirst_incrementFirst u r d t a b rows]
    · have h' := (sameKey_incr u r d t a x).trans h
      simp only [incrementFirst, h, if_true, h']
      simp [add_assoc]

theorem any_incrementFirst (u r : Int) (d t : String) (c : Int) :
    ∀ rows : List UserBandwidthStat,
      (incrementFirst (sameKey u r d t) c rows).any (sameKey u r d t) =
        rows.any (sameKey u r d t)
  | [] => rfl
  | x :: rows => by
    cases h : sameKey u r d t x
    · simp only [incrementFirst, h, if_false, Bool.false_eq_true, List.any_cons]
      rw [any_incrementFirst u r d t c rows]
    · have h' := (sameKey_incr u r d t c x).trans h
      simp only [incrementFirst, h, if_true, List.any_cons, h', Bool.true_or]

theorem incrementFirst_append_of_not_any (p : UserBandwidthStat → Bool) (c : Int)
    (y : UserBandwidthStat) (hy : p y = true) :
    ∀ rows : List UserBandwidthStat, rows.any p = false →
      incrementFirst p c (rows ++ [y]) = rows ++ [{ y with Bytes := y.Bytes + c }]
  | [], _ => by simp [incrementFirst, hy]
  | x :: rows, h => by
    simp only [List.any_cons, Bool.or_eq_false_iff] at h
    have ih := incrementFirst_append_of_not_any p c y hy rows h.2
    show incrementFirst p c (x :: (rows ++ [y])) = x :: (rows ++ [{ y with Bytes := y.Bytes + c }])
    simp only [incrementFirst, h.1, if_false, Bool.false_eq_true, ih]

theorem InsertOrUpdateQuickly_twice (t : PartialTable) (u r : Int) (d s : String) (a b : Int) :
    InsertOrUpdateQuickly (InsertOrUpdateQuickly t u r d s a) u r d s b =
      InsertOrUpdateQuickly t u r d s (a + b) := by
  unfold InsertOrUpdateQuickly
  cases h : t.rows.any (sameKey u r d s)
  · simp only [Bool.false_eq_true, if_false]
    have hnew : sameKey u r d s ⟨t.autoIncrement, u, r, d, s, a⟩ = true := by
      simp [sameKey]
    have hany : (t.rows ++ [(⟨t.autoIncrement, u, r, d, s, a⟩ : UserBandwidthStat)]).any
        (sameKey u r d s) = true := by
      rw [List.any_append]; simp [hnew]
    rw [if_pos hany]
    rw [incrementFirst_append_of_not_any _ _ _ hnew _ h]
  · simp only [if_true]
    rw [any_incrementFirst, h]
    simp only [if_true, incrementFirst_incrementFirst]

theorem find?_incrementFirst (u r : Int) (d t : String) (c : Int) :
    ∀ rows : List UserBandwidthStat,
      (incrementFirst (sameKey u r d t) c rows).find? (sameKey u r d t) =
        (rows.find? (sameKey u r d t)).map (fun x => { x with Bytes := x.Bytes + c })
  | [] => rfl
  | x :: rows => by
    cases h : sameKey u r d t x
    · simp only [incrementFirst, h, if_false, Bool.false_eq_true, List.find?_cons]
      exact find?_incrementFirst u r d t c rows
    · have h' := (sameKey_incr u r d t c x).trans h
      simp only [incrementFirst, h, if_true, List.find?_cons, h', Option.map_some']

theorem filter_not_incrementFirst (u r : Int) (d t : String) (c : Int) :
    ∀ rows : List UserBandwidthStat,
      (incrementFirst (sameKey u r d t) c rows).filter (fun x => !sameKey u r d t x) =
        rows.filter (fun x => !sameKey u r d t x)
  | [] => rfl
  | x :: rows => by
    cases h : sameKey u r d t x
    · simp only [incrementFirst, h, if_false, Bool.false_eq_true, List.filter_cons, Bool.not_false,
        if_true]
      rw [filter_not_incrementFirst u r d t c rows]
    · have h' := (sameKey_incr u r d t c x).trans h
      simp only [incrementFirst, h, if_true, List.filter_cons, h', Bool.not_true,
        Bool.false_eq_true, if_false]

theorem find?_InsertOrUpdateQuickly (t : PartialTable) (u r : Int) (d s : String) (c : Int) :
    ∃ row, (InsertOrUpdateQuickly t u r d s c).rows.find? (sameKey u r d s) = some row ∧
      row.Bytes = ((t.rows.find? (sameKey u r d s)).map (fun x => x.Bytes)).getD 0 + c := by
  unfold InsertOrUpdateQuickly
  cases h : t.rows.any (sameKey u r d s)
  · have hnone : t.rows.find? (sameKey u r d s) = none := by
      rw [List.find?_eq_none]
      intro x hx
      have := List.any_eq_false.1 h x hx
      simpa using this
    have hnew : sameKey u r d s ⟨t.autoIncrement, u, r, d, s, c⟩ = true := by
      simp [sameKey]
    refine ⟨⟨t.autoIncrement, u, r, d, s, c⟩, ?_, ?_⟩
    · simp only [Bool.false_eq_true, if_false, List.find?_append, hnone, Option.none_or,
        List.find?_cons, hnew]
    · simp [hnone]
  · simp only [if_true, find?_incrementFirst]
    obtain ⟨x, hx, hpx⟩ := List.any_eq_true.1 h
    cases hf : t.rows.find? (sameKey u r d s) with
    | none =>
      rw [List.find?_eq_none] at hf
      exact absurd hpx (hf x hx)
    | some y => exact ⟨_, rfl, by simp⟩

theorem filter_not_InsertOrUpdateQuickly (t : PartialTable) (u r : Int) (d s : String) (c : Int) :
    (InsertOrUpdateQuickly t u r d s c).rows.filter (fun x => !sameKey u r d s x) =
      t.rows.filter (fun x => !sameKey u r d s x) := by
  unfold InsertOrUpdateQuickly
  cases h : t.rows.any (sameKey u r d s)
  · have hnew : sameKey u r d s ⟨t.autoIncrement, u, r, d, s, c⟩ = true := by
      simp [sameKey]
    simp only [Bool.false_eq_true, if_false, List.filter_append, List.filter_cons, hnew,
      Bool.not_true, List.filter_nil, List.append_nil]
  · simp only [if_true, filter_not_incrementFirst]

theorem UpdateUserBandwidth_of_pos (st : Store) (u r : Int) (d s : String) (c : Int)
    (h : 0 < u) :
    UpdateUserBandwidth st u r d s c =
      .ok (Function.update st (shardOf u) (InsertOrUpdateQuickly (st (shardOf u)) u r d s c)) := by
  unfold UpdateUserBandwidth
  rw [if_neg (by omega), findTable_partialTable u (le_of_lt h)]

theorem UpdateUserBandwidth_twice (st : Store) (u r : Int) (d s : String) (a b : Int)
    (h : 0 < u) :
    (UpdateUserBandwidth st u r d s a >>= fun st1 => UpdateUserBandwidth st1 u r d s b) =
      .ok (Function.update st (shardOf u)
        (InsertOrUpdateQuickly (st (shardOf u)) u r d s (a + b))) := by
  rw [UpdateUserBandwidth_of_pos st u r d s a h]
  show UpdateUserBandwidth _ u r d s b = _
  rw [UpdateUserBandwidth_of_pos _ u r d s b h, Function.update_same, Function.update_idem,
    InsertOrUpdateQuickly_twice]

/-- Claim C3: `UpdateUserBandwidth` accumulates commutatively. For every
`userId > 0`, key `(userId, regionId, day, timeAt)` and amounts `a` and `b`,
from any store, recording `a` then `b` and recording `b` then `a` both succeed
and leave the same store; in it the row of the key holds its previous total
(0 without a previous row) plus `a + b`, the rows with another key are the
same in every table, and every other table is unchanged. -/
theorem UpdateUserBandwidth_accumulates_commutatively (st : Store) (userId regionId : Int)
    (day timeAt : String) (a b : Int) (hUser : 0 < userId) :
    ∃ st2 : Store,
      (UpdateUserBandwidth st userId regionId day timeAt a >>=
        fun st1 => UpdateUserBandwidth st1 userId regionId day timeAt b) = .ok st2 ∧
      (UpdateUserBandwidth st userId regionId day timeAt b >>=
        fun st1 => UpdateUserBandwidth st1 userId regionId day timeAt a) = .ok st2 ∧
      (∃ row, findRow st2 userId regionId day timeAt = some row ∧
        row.Bytes =
          ((findRow st userId regionId day timeAt).map (fun x => x.Bytes)).getD 0 + (a + b)) ∧
      (∀ i, (st2 i).rows.filter (fun x => !sameKey userId regionId day timeAt x) =
        (st i).rows.filter (fun x => !sameKey userId regionId day timeAt x)) ∧
      (∀ i, i ≠ shardOf userId → st2 i = st i) := by
  refine ⟨_, UpdateUserBandwidth_twice st userId regionId day timeAt a b hUser, ?_, ?_, ?_, ?_⟩
  · rw [UpdateUserBandwidth_twice st userId regionId day timeAt b a hUser, add_comm b a]
  · unfold findRow
    rw [Function.update_same]
    exact find?_InsertOrUpdateQuickly _ _ _ _ _ _
  · intro i
    by_cases hi : i = shardOf userId
    · subst hi
      rw [Function.update_same]
      exact filter_not_InsertOrUpdateQuickly _ _ _ _ _ _
    · rw [Function.update_noteq hi]
  · intro i hi
    exact Function.update_noteq hi _ _

/-- A write for a user id that is not positive returns at once. -/
theorem UpdateUserBandwidth_of_nonpos (st : Store) (userId regionId : Int)
    (day timeAt : String) (bytes : Int) (hUser : userId ≤ 0) :
    UpdateUserBandwidth st userId regionId day timeAt bytes = .ok st := by
  unfold UpdateUserBandwidth
  rw [if_pos hUser]

/-- Claim C7, amended: for every tenant identifier that is not negative,
`partialTable` returns the base table name followed by `_` and an index in
0..19 equal to `userId mod 20`; that name is one of the tables `runBatch`
enumerates and resolves to the partition table of that index. -/
theorem partialTable_total_on_nonneg (userId : Int) (hUser : 0 ≤ userId) :
    0 ≤ userId % 20 ∧ userId % 20 < 20 ∧
      partialTable userId = Table ++ "_" ++ toString (userId % 20) ∧
      partialTable userId ∈ runBatchTables ∧
      findTable (partialTable userId) = some (shardOf userId) := by
  refine ⟨Int.emod_nonneg _ (by norm_num), Int.emod_lt_of_pos _ (by norm_num), ?_,
    partialTable_mem_runBatchTables userId hUser, findTable_partialTable userId hUser⟩
  unfold partialTable
  rw [show ((UserBandwidthStatTablePartials : Nat) : Int) = 20 from rfl,
    Int.tmod_eq_emod hUser (by norm_num)]

/-- Claim C7, counterexample: `-5` is a 64-bit signed integer, Go's `%`
truncates towards zero, so `partialTable(-5)` is `edgeUserBandwidthStats_-5`,
which is none of the 20 partition tables `runBatch` enumerates. -/
theorem partialTable_negative_user :
    (-(2:Int) ^ 63 ≤ -5 ∧ (-5 : Int) < 2 ^ 63) ∧
      partialTable (-5) = "edgeUserBandwidthStats_-5" ∧
      partialTable (-5) ∉ runBatchTables ∧ findTable (partialTable (-5)) = none := by
  decide

/-! ### String order -/

theorem ltChars_irrefl : ∀ a : List Char, ltChars a a = false
  | [] => rfl
  | c :: cs => by
    simp only [ltChars, lt_irrefl, if_false]
    exact ltChars_irrefl cs

theorem ltChars_trans : ∀ a b c : List Char,
    ltChars a b = true → ltChars b c = true → ltChars a c = true
  | [], [], _, h, _ => by simp [ltChars] at h
  | [], _ :: _, [], _, h => by simp [ltChars] at h
  | [], _ :: _, _ :: _, _, _ => rfl
  | _ :: _, [], _, h, _ => by simp [ltChars] at h
  | _ :: _, _ :: _, [], _, h => by simp [ltChars] at h
  | x :: a, y :: b, z :: c, h1, h2 => by
    simp only [ltChars] at h1 h2 ⊢
    by_cases hxy : x.toNat < y.toNat
    · by_cases hyz : y.toNat < z.toNat
      · rw [if_pos (lt_trans hxy hyz)]
      · rw [if_neg hyz] at h2
        by_cases hzy : z.toNat < y.toNat
        · rw [if_pos hzy] at h2; cases h2
        · have : y.toNat = z.toNat := by omega
          rw [if_pos (this ▸ hxy)]
    · rw [if_neg hxy] at h1
      by_cases hyx : y.toNat < x.toNat
      · rw [if_pos hyx] at h1; cases h1
      · rw [if_neg hyx] at h1
        have hxy' : x.toNat = y.toNat := by omega
        by_cases hyz : y.toNat < z.toNat
        · rw [if_pos (hxy' ▸ hyz)]
        · rw [if_neg hyz] at h2
          by_cases hzy : z.toNat < y.toNat
          · rw [if_pos hzy] at h2; cases h2
          · rw [if_neg hzy] at h2
            rw [if_neg (by omega), if_neg (by omega)]
            exact ltChars_trans a b c h1 h2

theorem ltChars_asymm (a b : List Char) (h : ltChars a b = true) : ltChars b a = false := by
  cases h2 : ltChars b a
  · rfl
  · have := ltChars_trans a b a h h2
    rw [ltChars_irrefl] at this
    cases this

theorem ltChars_append_left : ∀ p a b : List Char, ltChars (p ++ a) (p ++ b) = ltChars a b
  | [], _, _ => rfl
  | c :: p, a, b => by
    simp only [List.cons_append, ltChars, lt_irrefl, if_false]
    exact ltChars_append_left p a b

theorem ltChars_append_of_length_eq : ∀ a b x y : List Char,
    ltChars a b = true → a.length = b.length → ltChars (a ++ x) (b ++ y) = true
  | [], [], _, _, h, _ => by simp [ltChars] at h
  | [], _ :: _, _, _, _, hl => by simp at hl
  | _ :: _, [], _, _, _, hl => by simp at hl
  | c :: a, e :: b, x, y, h, hl => by
    simp only [List.cons_append, ltChars] at h ⊢
    by_cases h1 : c.toNat < e.toNat
    · rw [if_pos h1]
    · rw [if_neg h1] at h ⊢
      by_cases h2 : e.toNat < c.toNat
      · rw [if_pos h2] at h; cases h
      · rw [if_neg h2] at h ⊢
        exact ltChars_append_of_length_eq a b x y h (by simpa using hl)

/-! ### Fixed-width decimal numerals -/

theorem digitChar_toNat (n : Nat) : (digitChar n).toNat = 48 + n % 10 := by
  have h : n % 10 < 10 := Nat.mod_lt _ (by norm_num)
  unfold digitChar
  generalize n % 10 = k at h
  interval_cases k <;> rfl

theorem length_fixedDigits : ∀ (k n : Nat), (fixedDigits k n).length = k
  | 0, _ => rfl
  | k + 1, n => by simp [fixedDigits, length_fixedDigits k]

theorem fixedDigits_isDigit : ∀ (k n : Nat), ∀ c ∈ fixedDigits k n, 48 ≤ c.toNat ∧ c.toNat ≤ 57
  | 0, _, c, h => by simp [fixedDigits] at h
  | k + 1, n, c, h => by
    simp only [fixedDigits, List.mem_cons] at h
    rcases h with rfl | h
    · rw [digitChar_toNat]
      have : (n / 10 ^ k) % 10 < 10 := Nat.mod_lt _ (by norm_num)
      omega
    · exact fixedDigits_isDigit k _ c h

theorem fixedDigits_lt : ∀ (k a b : Nat), a < b → b < 10 ^ k →
    ltChars (fixedDigits k a) (fixedDigits k b) = true
  | 0, a, b, hab, hb => by simp at hb; omega
  | k + 1, a, b, hab, hb => by
    have hpos : 0 < 10 ^ k := by positivity
    have hqb : b / 10 ^ k < 10 := by
      rw [Nat.div_lt_iff_lt_mul hpos]
      rw [pow_succ] at hb; omega
    have hqab : a / 10 ^ k ≤ b / 10 ^ k := Nat.div_le_div_right (le_of_lt hab)
    simp only [fixedDigits, ltChars, digitChar_toNat]
    rw [Nat.mod_eq_of_lt hqb, Nat.mod_eq_of_lt (lt_of_le_of_lt hqab hqb)]
    by_cases hq : a / 10 ^ k < b / 10 ^ k
    · rw [if_pos (by omega)]
    · have he : a / 10 ^ k = b / 10 ^ k := by omega
      rw [if_neg (by omega), if_neg (by omega)]
      apply fixedDigits_lt k
      · have ha := Nat.div_add_mod a (10 ^ k)
        have hb' := Nat.div_add_mod b (10 ^ k)
        rw [he] at ha
        omega
      · exact Nat.mod_lt _ hpos

theorem fixedDigits_le (k a b : Nat) (hab : a ≤ b) (hb : b < 10 ^ k) :
    ltChars (fixedDigits k b) (fixedDigits k a) = false := by
  rcases Nat.eq_or_lt_of_le hab with rfl | h
  · exact ltChars_irrefl _
  · exact ltChars_asymm _ _ (fixedDigits_lt k a b h hb)

/-! ### parseDigits -/

theorem foldl_parse_acc : ∀ (cs : List Char) (acc : Nat),
    cs.foldl (fun acc c => acc * 10 + (c.toNat - 48)) acc =
      acc * 10 ^ cs.length + parseDigits cs
  | [], acc => by simp [parseDigits]
  | c :: cs, acc => by
    unfold parseDigits
    simp only [List.foldl_cons, List.length_cons]
    rw [foldl_parse_acc cs (acc * 10 + (c.toNat - 48)), foldl_parse_acc cs (0 * 10 + (c.toNat - 48))]
    ring

theorem parseDigits_cons (c : Char) (cs : List Char) :
    parseDigits (c :: cs) = (c.toNat - 48) * 10 ^ cs.length + parseDigits cs := by
  show (c :: cs).foldl (fun acc c => acc * 10 + (c.toNat - 48)) 0 = _
  rw [List.foldl_cons, foldl_parse_acc]
  simp

theorem parseDigits_lt : ∀ cs : List Char, (∀ c ∈ cs, 48 ≤ c.toNat ∧ c.toNat ≤ 57) →
    parseDigits cs < 10 ^ cs.length
  | [], _ => by simp [parseDigits]
  | c :: cs, h => by
    rw [parseDigits_cons, List.length_cons, pow_succ]
    have h1 := parseDigits_lt cs (fun x hx => h x (List.mem_cons_of_mem _ hx))
    have h2 := h c (List.mem_cons_self _ _)
    have h3 : (c.toNat - 48) * 10 ^ cs.length ≤ 9 * 10 ^ cs.length :=
      Nat.mul_le_mul_right _ (by omega)
    omega

theorem fixedDigits_parseDigits : ∀ cs : List Char, (∀ c ∈ cs, 48 ≤ c.toNat ∧ c.toNat ≤ 57) →
    fixedDigits cs.length (parseDigits cs) = cs
  | [], _ => rfl
  | c :: cs, h => by
    have h1 := parseDigits_lt cs (fun x hx => h x (List.mem_cons_of_mem _ hx))
    have h2 := h c (List.mem_cons_self _ _)
    have hpos : 0 < 10 ^ cs.length := by positivity
    rw [parseDigits_cons, List.length_cons]
    simp only [fixedDigits]
    have hq : ((c.toNat - 48) * 10 ^ cs.length + parseDigits cs) / 10 ^ cs.length = c.toNat - 48 := by
      rw [Nat.add_comm, Nat.add_mul_div_right _ _ hpos, Nat.div_eq_of_lt h1]; simp
    have hr : ((c.toNat - 48) * 10 ^ cs.length + parseDigits cs) % 10 ^ cs.length = parseDigits cs := by
      rw [Nat.add_comm, Nat.add_mul_mod_self_right, Nat.mod_eq_of_lt h1]
    rw [hq, hr, fixedDigits_parseDigits cs (fun x hx => h x (List.mem_cons_of_mem _ hx))]
    congr 1
    unfold digitChar
    rw [Nat.mod_eq_of_lt (by omega), show 48 + (c.toNat - 48) = c.toNat by omega, Char.ofNat_toNat]

theorem isYYYYMMDD_iff (s : String) :
    isYYYYMMDD s = true ↔ s.data.length = 8 ∧ ∀ c ∈ s.data, 48 ≤ c.toNat ∧ c.toNat ≤ 57 := by
  unfold isYYYYMMDD
  simp [List.all_eq_true]

theorem fixedDigits_parse_day (s : String) (h : isYYYYMMDD s = true) :
    String.mk (fixedDigits 8 (parseDigits s.data)) = s ∧ parseDigits s.data < 10 ^ 8 := by
  obtain ⟨hl, hd⟩ := (isYYYYMMDD_iff s).1 h
  have h1 := fixedDigits_parseDigits s.data hd
  have h2 := parseDigits_lt s.data hd
  rw [hl] at h1 h2
  exact ⟨by rw [h1], h2⟩

theorem at_not_mem_fixedDigits (k n : Nat) : '@' ∉ fixedDigits k n := by
  intro h
  have := fixedDigits_isDigit k n _ h
  have h64 : ('@' : Char).toNat = 64 := by decide
  omega

/-! ### RangeDays and Range24HourTimes -/

theorem RangeDays_spec (dayFrom dayTo : String) (hF : isYYYYMMDD dayFrom = true)
    (hT : isYYYYMMDD dayTo = true) :
    ∃ days, RangeDays dayFrom dayTo = .ok days ∧
      (∀ d ∈ days, strLe dayFrom d = true ∧ strLe d dayTo = true ∧ '@' ∉ d.data ∧
        d.data.length = 8) ∧
      days.Pairwise (fun a b => strLt a b = true) := by
  obtain ⟨hFs, hFlt⟩ := fixedDigits_parse_day dayFrom hF
  obtain ⟨hTs, hTlt⟩ := fixedDigits_parse_day dayTo hT
  unfold RangeDays
  simp only [hF, hT, Bool.not_true, Bool.false_eq_true, if_false]
  refine ⟨_, rfl, ?_, ?_⟩
  · intro d hd
    obtain ⟨n, hn, rfl⟩ := List.mem_map.1 hd
    have hn' := (List.mem_filter.1 hn).1
    rw [List.mem_range'_1] at hn'
    have hnhi : n ≤ parseDigits dayTo.data := by omega
    refine ⟨?_, ?_, at_not_mem_fixedDigits 8 n, length_fixedDigits 8 n⟩
    · unfold strLe strLt
      conv => lhs; rw [← hFs]
      show (!ltChars (fixedDigits 8 n) (fixedDigits 8 (parseDigits dayFrom.data))) = true
      rw [fixedDigits_le 8 _ n hn'.1 (lt_of_le_of_lt hnhi hTlt)]; rfl
    · unfold strLe strLt
      conv => lhs; rw [← hTs]
      show (!ltChars (fixedDigits 8 (parseDigits dayTo.data)) (fixedDigits 8 n)) = true
      rw [fixedDigits_le 8 n _ hnhi hTlt]; rfl
  · rw [List.pairwise_map]
    have hp : ((List.range' (parseDigits dayFrom.data)
        (parseDigits dayTo.data + 1 - parseDigits dayFrom.data)).filter isCalendarDay).Pairwise
        (fun a b => a < b) := List.Pairwise.filter _ (List.pairwise_lt_range' _ _)
    refine List.Pairwise.imp_of_mem ?_ hp
    intro a b _ hb hab
    have hb' := (List.mem_filter.1 hb).1
    rw [List.mem_range'_1] at hb'
    exact fixedDigits_lt 8 a b hab (by omega)

theorem Range24HourTimes_spec :
    ∃ times, Range24HourTimes 5 = .ok times ∧ times.length = 288 ∧
      (∀ t ∈ times, '@' ∉ t.data) ∧ times.Pairwise (fun a b => strLt a b = true) := by
  unfold Range24HourTimes
  refine ⟨_, rfl, by simp, ?_, ?_⟩
  · intro t ht
    obtain ⟨i, _, rfl⟩ := List.mem_map.1 ht
    exact at_not_mem_fixedDigits 4 _
  · rw [List.pairwise_map]
    refine List.Pairwise.imp_of_mem ?_ (List.pairwise_lt_range (24 * 60 / 5))
    intro a b _ hb hab
    rw [List.mem_range] at hb
    exact fixedDigits_lt 4 _ _ (by omega) (by norm_num; omega)

theorem parseDigits_fixedDigits : ∀ (k n : Nat), n < 10 ^ k → parseDigits (fixedDigits k n) = n
  | 0, n, h => by
    simp at h
    subst h
    rfl
  | k + 1, n, h => by
    have hpos : 0 < 10 ^ k := by positivity
    have hq : n / 10 ^ k < 10 := by
      rw [Nat.div_lt_iff_lt_mul hpos]
      rw [pow_succ] at h; omega
    simp only [fixedDigits]
    rw [parseDigits_cons, length_fixedDigits, digitChar_toNat, Nat.mod_eq_of_lt hq,
      parseDigits_fixedDigits k _ (Nat.mod_lt _ hpos)]
    have := Nat.div_add_mod n (10 ^ k)
    have e : 48 + n / 10 ^ k - 48 = n / 10 ^ k := Nat.add_sub_cancel_left _ _
    rw [e, Nat.mul_comm]
    exact this

/-- The days `RangeDays` lists are exactly the calendar days, written on eight
digits, that lie between `dayFrom` and `dayTo`. -/
theorem RangeDays_mem_iff (dayFrom dayTo : String) (hF : isYYYYMMDD dayFrom = true)
    (hT : isYYYYMMDD dayTo = true) :
    ∃ days, RangeDays dayFrom dayTo = .ok days ∧
      ∀ s, s ∈ days ↔
        (isYYYYMMDD s = true ∧ isCalendarDay (parseDigits s.data) = true ∧
          strLe dayFrom s = true ∧ strLe s dayTo = true) := by
  obtain ⟨days, hdays, hprop, _⟩ := RangeDays_spec dayFrom dayTo hF hT
  refine ⟨days, hdays, ?_⟩
  obtain ⟨hFs, hFlt⟩ := fixedDigits_parse_day dayFrom hF
  obtain ⟨hTs, hTlt⟩ := fixedDigits_parse_day dayTo hT
  have hd : days = ((List.range' (parseDigits dayFrom.data)
        (parseDigits dayTo.data + 1 - parseDigits dayFrom.data)).filter isCalendarDay).map
      (fun n => String.mk (fixedDigits 8 n)) := by
    unfold RangeDays at hdays
    simp only [hF, hT, Bool.not_true, Bool.false_eq_true, if_false] at hdays
    injection hdays with hdays
    exact hdays.symm
  intro s
  constructor
  · intro hs
    obtain ⟨h1, h2, _, _⟩ := hprop s hs
    rw [hd] at hs
    obtain ⟨n, hn, rfl⟩ := List.mem_map.1 hs
    obtain ⟨hnr, hcal⟩ := List.mem_filter.1 hn
    rw [List.mem_range'_1] at hnr
    have hn8 : n < 10 ^ 8 := by omega
    refine ⟨?_, ?_, h1, h2⟩
    · rw [isYYYYMMDD_iff]
      exact ⟨length_fixedDigits 8 n, fixedDigits_isDigit 8 n⟩
    · show isCalendarDay (parseDigits (fixedDigits 8 n)) = true
      rw [parseDigits_fixedDigits 8 n hn8]; exact hcal
  · rintro ⟨hs, hcal, h1, h2⟩
    obtain ⟨hSs, hSlt⟩ := fixedDigits_parse_day s hs
    have hlo : parseDigits dayFrom.data ≤ parseDigits s.data := by
      by_contra hcon
      have := fixedDigits_lt 8 _ _ (Nat.lt_of_not_le hcon) hFlt
      unfold strLe strLt at h1
      rw [← hFs, ← hSs] at h1
      simp only [Bool.not_eq_true'] at h1
      rw [h1] at this; cases this
    have hhi : parseDigits s.data ≤ parseDigits dayTo.data := by
      by_contra hcon
      have := fixedDigits_lt 8 _ _ (Nat.lt_of_not_le hcon) hSlt
      unfold strLe strLt at h2
      rw [← hTs, ← hSs] at h2
      simp only [Bool.not_eq_true'] at h2
      rw [h2] at this; cases this
    rw [hd, List.mem_map]
    refine ⟨parseDigits s.data, List.mem_filter.2 ⟨?_, hcal⟩, hSs⟩
    rw [List.mem_range'_1]
    omega

theorem timeLoop_eq (m : List (String × FindDailyServerBandwidthStatsBetweenDaysResponse_Stat))
    (now day : String) :
    ∀ (times : List String) (acc : List FindDailyServerBandwidthStatsBetweenDaysResponse_Stat),
      timeLoop m now day times acc =
        acc ++ (times.takeWhile (fun t => strLt (compositeKey day t) now)).map (entryOf m day)
  | [], acc => by simp [timeLoop]
  | t :: times, acc => by
    unfold timeLoop
    cases h : strLt (compositeKey day t) now
    · have : strLe now (compositeKey day t) = true := by unfold strLe; rw [h]; rfl
      rw [if_pos this]
      simp only [List.takeWhile_cons, h]
      simp
    · have : ¬ strLe now (compositeKey day t) = true := by unfold strLe; rw [h]; simp
      rw [if_neg this]
      simp only [List.takeWhile_cons, h, if_true]
      cases hl : m.lookup (compositeKey day t) with
      | none =>
        simp only
        rw [timeLoop_eq m now day times]
        simp [entryOf, hl]
      | some stat =>
        simp only
        rw [timeLoop_eq m now day times]
        simp [entryOf, hl]

theorem dayLoop_eq (m : List (String × FindDailyServerBandwidthStatsBetweenDaysResponse_Stat))
    (now : String) (times : List String) :
    ∀ (days : List String) (acc : List FindDailyServerBandwidthStatsBetweenDaysResponse_Stat),
      dayLoop m now times days acc =
        acc ++ days.flatMap (fun d =>
          (times.takeWhile (fun t => strLt (compositeKey d t) now)).map (entryOf m d))
  | [], acc => by simp [dayLoop]
  | d :: days, acc => by
    unfold dayLoop
    rw [dayLoop_eq m now times days, timeLoop_eq]
    simp [List.flatMap_cons, List.append_assoc]

theorem takeWhile_eq_filter_of_pairwise {α : Type} (R : α → α → Prop) (p : α → Bool)
    (hR : ∀ a b, R a b → p b = true → p a = true) :
    ∀ l : List α, l.Pairwise R → l.takeWhile p = l.filter p
  | [], _ => rfl
  | a :: l, h => by
    rw [List.pairwise_cons] at h
    cases hp : p a
    · rw [List.takeWhile_cons_of_neg (by simp [hp]), List.filter_cons_of_neg (by simp [hp])]
      symm
      rw [List.filter_eq_nil_iff]
      intro b hb hpb
      have := hR a b (h.1 b hb) hpb
      rw [hp] at this; cases this
    · rw [List.takeWhile_cons_of_pos hp, List.filter_cons_of_pos hp,
        takeWhile_eq_filter_of_pairwise R p hR l h.2]

theorem compositeKey_data (d t : String) :
    (compositeKey d t).data = d.data ++ '@' :: t.data := by
  unfold compositeKey
  simp [String.data_append]

theorem strLt_compositeKey_same_day (d t1 t2 : String) :
    strLt (compositeKey d t1) (compositeKey d t2) = strLt t1 t2 := by
  unfold strLt
  rw [compositeKey_data, compositeKey_data, ltChars_append_left]
  simp [ltChars]

theorem strLt_compositeKey_of_day_lt (d1 d2 t1 t2 : String) (h : strLt d1 d2 = true)
    (hl : d1.data.length = d2.data.length) :
    strLt (compositeKey d1 t1) (compositeKey d2 t2) = true := by
  unfold strLt
  rw [compositeKey_data, compositeKey_data]
  exact ltChars_append_of_length_eq _ _ _ _ h hl

theorem strLt_trans (a b c : String) (h1 : strLt a b = true) (h2 : strLt b c = true) :
    strLt a c = true := ltChars_trans _ _ _ h1 h2

theorem compositeKey_inj (d t d2 t2 : String) (hd : '@' ∉ d.data) (ht : '@' ∉ t.data)
    (h : compositeKey d2 t2 = compositeKey d t) : d2 = d ∧ t2 = t := by
  have h' := congrArg String.data h
  rw [compositeKey_data, compositeKey_data] at h'
  rw [List.append_eq_append_iff] at h'
  rcases h' with ⟨a, h1, h2⟩ | ⟨a, h1, h2⟩
  · cases a with
    | nil =>
      simp only [List.append_nil, List.nil_append, List.cons.injEq, true_and] at h1 h2
      exact ⟨String.ext h1.symm, String.ext h2⟩
    | cons c a =>
      simp only [List.cons_append, List.cons.injEq] at h2
      exfalso
      apply hd
      rw [h1, ← h2.1]
      simp
  · cases a with
    | nil =>
      simp only [List.append_nil, List.nil_append, List.cons.injEq, true_and] at h1 h2
      exact ⟨String.ext h1, String.ext h2.symm⟩
    | cons c a =>
      simp only [List.cons_append, List.cons.injEq] at h2
      exfalso
      apply ht
      rw [h2.2]
      simp

theorem buildMap_eq (overflow : Int → Int) (ones : List UserBandwidthStat) :
    buildMap overflow ones =
      (ones.map (fun one => (compositeKey one.Day one.TimeAt, statOf overflow one))).reverse := by
  have h : ∀ (l : List UserBandwidthStat)
      (acc : List (String × FindDailyServerBandwidthStatsBetweenDaysResponse_Stat)),
      l.foldl (fun m one => (compositeKey one.Day one.TimeAt, statOf overflow one) :: m) acc =
        (l.map (fun one => (compositeKey one.Day one.TimeAt, statOf overflow one))).reverse ++
          acc := by
    intro l
    induction l with
    | nil => intro acc; rfl
    | cons x l ih => intro acc; simp [List.foldl_cons, ih]
  unfold buildMap
  rw [h]; simp

theorem lookup_of_unique {β : Type} (k : String) (v : β) :
    ∀ A : List (String × β), (k, v) ∈ A → (∀ w, (k, w) ∈ A → w = v) → A.lookup k = some v
  | [], h, _ => by cases h
  | (k2, w) :: A, h, hu => by
    by_cases hk : k = k2
    · subst hk
      have := hu w (List.mem_cons_self _ _)
      subst this
      simp [List.lookup]
    · have hmem : (k, v) ∈ A := by
        rcases List.mem_cons.1 h with h | h
        · exact absurd (congrArg Prod.fst h) hk
        · exact h
      have hbeq : (k == k2) = false := by simpa using hk
      rw [List.lookup, hbeq]
      exact lookup_of_unique k v A hmem (fun w hw => hu w (List.mem_cons_of_mem _ hw))

theorem entryOf_buildMap_of_mem (overflow : Int → Int) (G : List UserBandwidthStat)
    (hnd : (G.map bucketOf).Nodup)
    (d t : String) (hd : '@' ∉ d.data) (ht : '@' ∉ t.data) (g : UserBandwidthStat)
    (hg : g ∈ G) (hb : bucketOf g = (d, t)) :
    entryOf (buildMap overflow G) d t = statOf overflow g := by
  have hgd : g.Day = d := congrArg Prod.fst hb
  have hgt : g.TimeAt = t := congrArg Prod.snd hb
  have hl : (buildMap overflow G).lookup (compositeKey d t) = some (statOf overflow g) := by
    apply lookup_of_unique
    · rw [buildMap_eq, List.mem_reverse, List.mem_map]
      exact ⟨g, hg, by rw [hgd, hgt]⟩
    · intro w hw
      rw [buildMap_eq, List.mem_reverse, List.mem_map] at hw
      obtain ⟨g2, hg2, he⟩ := hw
      have hk : compositeKey g2.Day g2.TimeAt = compositeKey d t := congrArg Prod.fst he
      obtain ⟨h1, h2⟩ := compositeKey_inj d t g2.Day g2.TimeAt hd ht hk
      have hb2 : bucketOf g2 = bucketOf g := by
        rw [hb]; show (g2.Day, g2.TimeAt) = (d, t); rw [h1, h2]
      have : g2 = g := List.inj_on_of_nodup_map hnd hg2 hg hb2
      rw [← this]
      exact (congrArg Prod.snd he).symm
  unfold entryOf
  rw [hl]

theorem entryOf_buildMap_of_not_mem (overflow : Int → Int) (G : List UserBandwidthStat)
    (d t : String) (hd : '@' ∉ d.data) (ht : '@' ∉ t.data)
    (hno : ∀ g ∈ G, bucketOf g ≠ (d, t)) :
    entryOf (buildMap overflow G) d t = { Bytes := 0, Bits := 0, Day := d, TimeAt := t } := by
  have hl : (buildMap overflow G).lookup (compositeKey d t) = none := by
    rw [List.lookup_eq_none_iff]
    intro p hp
    rw [buildMap_eq, List.mem_reverse, List.mem_map] at hp
    obtain ⟨g2, hg2, rfl⟩ := hp
    rw [bne_iff_ne]
    intro hk
    have hk' : compositeKey g2.Day g2.TimeAt = compositeKey d t := hk.symm
    obtain ⟨h1, h2⟩ := compositeKey_inj d t g2.Day g2.TimeAt hd ht hk'
    exact hno g2 hg2 (by show (g2.Day, g2.TimeAt) = (d, t); rw [h1, h2])
  unfold entryOf
  rw [hl]

theorem bucketSamples_eq (rows : List UserBandwidthStat) (userId regionId : Int)
    (dayFrom dayTo d t : String) (h1 : strLe dayFrom d = true) (h2 : strLe d dayTo = true) :
    bucketSamples rows userId regionId (d, t) =
      (whereRows rows (if regionId > 0 then some regionId else none) userId dayFrom dayTo).filter
        (fun r => decide (bucketOf r = (d, t))) := by
  unfold bucketSamples whereRows
  rw [List.filter_filter]
  apply List.filter_congr
  intro r _
  by_cases hd : r.Day = d
  · by_cases ht : r.TimeAt = t
    · have hb : bucketOf r = (d, t) := by show (r.Day, r.TimeAt) = (d, t); rw [hd, ht]
      by_cases hr : regionId > 0
      · simp [hd, ht, hb, hr, h1, h2, matchesRegion, Bool.and_comm]
      · simp [hd, ht, hb, hr, h1, h2, matchesRegion]
    · have hb : ¬ bucketOf r = (d, t) := fun e => ht (congrArg Prod.snd e)
      simp [ht, hb]
  · have hb : ¬ bucketOf r = (d, t) := fun e => hd (congrArg Prod.fst e)
    simp [hd, hb]

theorem entryOf_eq_readEntry (overflow : Int → Int) (rows : List UserBandwidthStat)
    (userId regionId : Int)
    (dayFrom dayTo d t : String) (h1 : strLe dayFrom d = true) (h2 : strLe d dayTo = true)
    (hd : '@' ∉ d.data) (ht : '@' ∉ t.data) :
    entryOf (buildMap overflow (groupByDayTimeAt
      (whereRows rows (if regionId > 0 then some regionId else none) userId dayFrom dayTo))) d t =
      readEntry overflow rows userId regionId (d, t) := by
  set R := whereRows rows (if regionId > 0 then some regionId else none) userId dayFrom dayTo
    with hR
  obtain ⟨hnd0, hmem, hsum⟩ := foldl_addToGroup_spec R [] (by simp)
  have hnd : ((groupByDayTimeAt R).map bucketOf).Nodup := hnd0
  unfold readEntry
  rw [bucketSamples_eq rows userId regionId dayFrom dayTo d t h1 h2, ← hR]
  by_cases hin : (d, t) ∈ R.map bucketOf
  · have hin' : (d, t) ∈ (groupByDayTimeAt R).map bucketOf := by
      have := (hmem (d, t)).2 (Or.inr hin)
      exact this
    obtain ⟨g, hg, hb⟩ := List.mem_map.1 hin'
    rw [entryOf_buildMap_of_mem overflow _ hnd d t hd ht g hg hb]
    have hbytes : g.Bytes = sumFor (d, t) R := by
      have := (mem_group_spec R g hg).2
      rw [hb] at this; exact this
    obtain ⟨x, hx, hxb⟩ := List.mem_map.1 hin
    have hne : R.filter (fun r => decide (bucketOf r = (d, t))) ≠ [] := by
      intro he
      have := List.filter_eq_nil_iff.1 he x hx
      simp [hxb] at this
    cases hf : R.filter (fun r => decide (bucketOf r = (d, t))) with
    | nil => exact absurd hf hne
    | cons y ys =>
      simp only
      have hs : sumFor (d, t) R = ((y :: ys).map (fun x => x.Bytes)).sum := by
        unfold sumFor; rw [hf]
      unfold statOf
      rw [hbytes, hs]
      have e1 : g.Day = d := congrArg Prod.fst hb
      have e2 : g.TimeAt = t := congrArg Prod.snd hb
      rw [e1, e2]
  · have hno : ∀ g ∈ groupByDayTimeAt R, bucketOf g ≠ (d, t) := by
      intro g hg hb
      have := (hmem (d, t)).1 (hb ▸ List.mem_map_of_mem bucketOf hg)
      simp at this
      exact hin (List.mem_map.2 (by obtain ⟨a, ha, hab⟩ := this; exact ⟨a, ha, hab⟩))
    rw [entryOf_buildMap_of_not_mem overflow _ d t hd ht hno]
    have hf : R.filter (fun r => decide (bucketOf r = (d, t))) = [] := by
      rw [List.filter_eq_nil_iff]
      intro x hx hxb
      exact hin (List.mem_map.2 ⟨x, hx, of_decide_eq_true hxb⟩)
    rw [hf]

theorem flatMap_congr_mem {α β : Type} (f g : α → List β) :
    ∀ l : List α, (∀ a ∈ l, f a = g a) → l.flatMap f = l.flatMap g
  | [], _ => rfl
  | a :: l, h => by
    rw [List.flatMap_cons, List.flatMap_cons, h a (List.mem_cons_self _ _),
      flatMap_congr_mem f g l (fun x hx => h x (List.mem_cons_of_mem _ hx))]

theorem bucketEntry_day (rows : List UserBandwidthStat) (userId regionId : Int)
    (b : String × String) :
    (bucketEntry rows userId regionId b).Day = b.1 ∧
      (bucketEntry rows userId regionId b).TimeAt = b.2 := by
  unfold bucketEntry
  cases bucketSamples rows userId regionId b <;> exact ⟨rfl, rfl⟩

theorem readEntry_day (overflow : Int → Int) (rows : List UserBandwidthStat)
    (userId regionId : Int) (b : String × String) :
    (readEntry overflow rows userId regionId b).Day = b.1 ∧
      (readEntry overflow rows userId regionId b).TimeAt = b.2 := by
  unfold readEntry
  cases bucketSamples rows userId regionId b <;> exact ⟨rfl, rfl⟩

theorem wrapInt64_fits (x : Int) : fitsInt64 (wrapInt64 x) = true := by
  unfold fitsInt64 wrapInt64
  have h1 : 0 ≤ (x + 2 ^ 63) % 2 ^ 64 := Int.emod_nonneg _ (by norm_num)
  have h2 : (x + 2 ^ 63) % 2 ^ 64 < 2 ^ 64 := Int.emod_lt_of_pos _ (by norm_num)
  simp only [Bool.and_eq_true, decide_eq_true_eq]
  constructor <;> omega

/-- What `GetInt64` returns is an `int64`. -/
theorem GetInt64_fits (overflow : Int → Int) (x : Int) :
    fitsInt64 (GetInt64 overflow x) = true := by
  unfold GetInt64
  split_ifs with h
  · exact h
  · exact wrapInt64_fits _

/-- A sum in the range of `int64` is read as it is. -/
theorem GetInt64_of_fits (overflow : Int → Int) (x : Int) (h : fitsInt64 x = true) :
    GetInt64 overflow x = x := by
  unfold GetInt64
  rw [if_pos h]

/-- A sum outside the range of `int64` is not what `GetInt64` returns. -/
theorem GetInt64_ne_of_not_fits (overflow : Int → Int) (x : Int) (h : fitsInt64 x = false) :
    GetInt64 overflow x ≠ x := by
  intro e
  have := GetInt64_fits overflow x
  rw [e, h] at this
  cases this

/-- The entry the code builds for a bucket, in terms of the bucket's stored sum. -/
theorem readEntry_eq (overflow : Int → Int) (rows : List UserBandwidthStat)
    (userId regionId : Int) (b : String × String) :
    readEntry overflow rows userId regionId b =
      if bucketSamples rows userId regionId b = [] then
        { Bytes := 0, Bits := 0, Day := b.1, TimeAt := b.2 }
      else
        { Bytes := GetInt64 overflow (bucketSum rows userId regionId b),
          Bits := wrapInt64 (GetInt64 overflow (bucketSum rows userId regionId b) * 8),
          Day := b.1, TimeAt := b.2 } := by
  unfold readEntry bucketSum
  cases bucketSamples rows userId regionId b with
  | nil => simp
  | cons r rs => simp

/-- The entry the code builds is the entry of the stored sum when that sum is in
the range of `int64`. -/
theorem readEntry_eq_bucketEntry (overflow : Int → Int) (rows : List UserBandwidthStat)
    (userId regionId : Int) (b : String × String)
    (h : fitsInt64 (bucketSum rows userId regionId b) = true) :
    readEntry overflow rows userId regionId b = bucketEntry rows userId regionId b := by
  unfold readEntry bucketEntry
  unfold bucketSum at h
  cases hs : bucketSamples rows userId regionId b with
  | nil => rfl
  | cons r rs =>
    rw [hs] at h
    simp only [GetInt64_of_fits overflow _ h]

/-- Every entry the code builds holds an `int64` and eight times it in `int64`. -/
theorem readEntry_int64 (overflow : Int → Int) (rows : List UserBandwidthStat)
    (userId regionId : Int) (b : String × String) :
    fitsInt64 (readEntry overflow rows userId regionId b).Bytes = true ∧
      (readEntry overflow rows userId regionId b).Bits =
        wrapInt64 ((readEntry overflow rows userId regionId b).Bytes * 8) := by
  unfold readEntry
  cases bucketSamples rows userId regionId b with
  | nil =>
    constructor
    · show fitsInt64 0 = true
      decide
    · show (0 : Int) = wrapInt64 (0 * 8)
      decide
  | cons r rs => exact ⟨GetInt64_fits _ _, rfl⟩

/-- The walk of the range report, for any list of days and of time labels in
ascending order. -/
theorem dayLoop_eq_filter (overflow : Int → Int) (rows : List UserBandwidthStat)
    (userId regionId : Int)
    (dayFrom dayTo now : String) (days times : List String)
    (hdays : ∀ d ∈ days, strLe dayFrom d = true ∧ strLe d dayTo = true ∧ '@' ∉ d.data ∧
        d.data.length = 8)
    (htimes : ∀ t ∈ times, '@' ∉ t.data)
    (hsorted : times.Pairwise (fun a b => strLt a b = true)) :
    dayLoop (buildMap overflow (groupByDayTimeAt
        (whereRows rows (if regionId > 0 then some regionId else none) userId dayFrom dayTo)))
      now times days [] =
    ((days.flatMap (fun d => times.map (fun t => (d, t)))).filter
      (fun b => strLt (compositeKey b.1 b.2) now)).map
        (readEntry overflow rows userId regionId) := by
  rw [dayLoop_eq, List.nil_append, List.filter_flatMap, List.map_flatMap]
  apply flatMap_congr_mem
  intro d hd
  obtain ⟨h1, h2, h3, _⟩ := hdays d hd
  rw [takeWhile_eq_filter_of_pairwise (fun a b => strLt a b = true) _ _ times hsorted]
  · rw [List.filter_map, List.map_map]
    apply List.map_congr_left
    intro t ht
    have htm : t ∈ times := (List.mem_filter.1 ht).1
    exact entryOf_eq_readEntry overflow rows userId regionId dayFrom dayTo d t h1 h2 h3
      (htimes t htm)
  · intro a b hab hb
    have := strLt_compositeKey_same_day d a b
    exact strLt_trans _ _ _ (this.trans hab) hb

theorem keys_pairwise (now : String) (days times : List String)
    (hlen : ∀ d ∈ days, d.data.length = 8)
    (hdsorted : days.Pairwise (fun a b => strLt a b = true))
    (hsorted : times.Pairwise (fun a b => strLt a b = true)) :
    (((days.flatMap (fun d => times.map (fun t => (d, t)))).filter
      (fun b => strLt (compositeKey b.1 b.2) now)).map
        (fun b => compositeKey b.1 b.2)).Pairwise (fun a b => strLt a b = true) := by
  rw [List.pairwise_map]
  apply List.Pairwise.filter
  rw [List.pairwise_flatMap]
  constructor
  · intro d _
    rw [List.pairwise_map]
    refine List.Pairwise.imp ?_ hsorted
    intro a b hab
    exact (strLt_compositeKey_same_day d a b).trans hab
  · refine List.Pairwise.imp_of_mem ?_ hdsorted
    intro d1 d2 h1 h2 h12 x hx y hy
    obtain ⟨t1, _, rfl⟩ := List.mem_map.1 hx
    obtain ⟨t2, _, rfl⟩ := List.mem_map.1 hy
    exact strLt_compositeKey_of_day_lt d1 d2 t1 t2 h12 ((hlen d1 h1).trans (hlen d2 h2).symm)

/-- The result of the range report for a positive user and a well-formed range:
the entries the code builds for the theoretical buckets before the current
instant, in order. -/
theorem FindUserBandwidthStatsBetweenDays_eq (overflow : Int → Int) (st : Store)
    (currentTime : String) (userId regionId : Int) (dayFrom dayTo : String) (hUser : 0 < userId)
    (hFrom : isYYYYMMDD dayFrom = true) (hTo : isYYYYMMDD dayTo = true)
    (hOrder : strLe dayFrom dayTo = true) :
    FindUserBandwidthStatsBetweenDays overflow st currentTime userId regionId dayFrom dayTo =
      .ok (((theoreticalBuckets dayFrom dayTo).filter
        (fun b => strLt (compositeKey b.1 b.2) currentTime)).map
          (readEntry overflow (st (shardOf userId)).rows userId regionId)) := by
  obtain ⟨days, hdays, hdprop, _⟩ := RangeDays_spec dayFrom dayTo hFrom hTo
  obtain ⟨times, htimes, _, htprop, htsorted⟩ := Range24HourTimes_spec
  have hswap : strLt dayTo dayFrom = false := by
    unfold strLe at hOrder
    simpa using hOrder
  unfold FindUserBandwidthStatsBetweenDays theoreticalBuckets
  simp only [hFrom, hTo, hswap, Bool.not_true, Bool.false_eq_true, if_false,
    if_neg (not_le.2 hUser), Query_partialTable st userId (le_of_lt hUser), hdays, htimes]
  rw [dayLoop_eq_filter overflow (st (shardOf userId)).rows userId regionId dayFrom dayTo
    currentTime days times hdprop htprop htsorted]

/-- The keys of the theoretical buckets before an instant ascend strictly. -/
theorem theoreticalBuckets_keys_pairwise (currentTime dayFrom dayTo : String)
    (hFrom : isYYYYMMDD dayFrom = true) (hTo : isYYYYMMDD dayTo = true) :
    (((theoreticalBuckets dayFrom dayTo).filter
      (fun b => strLt (compositeKey b.1 b.2) currentTime)).map
        (fun b => compositeKey b.1 b.2)).Pairwise (fun a b => strLt a b = true) := by
  obtain ⟨days, hdays, hdprop, hdsorted⟩ := RangeDays_spec dayFrom dayTo hFrom hTo
  obtain ⟨times, htimes, _, _, htsorted⟩ := Range24HourTimes_spec
  unfold theoreticalBuckets
  simp only [hdays, htimes]
  exact keys_pairwise _ days times (fun d hd => (hdprop d hd).2.2.2) hdsorted htsorted

/-- Claim C4, amended: for every `userId > 0`, well-formed `dayFrom <= dayTo` and
current instant, `FindUserBandwidthStatsBetweenDays` succeeds and returns, in
order, one entry for each of exactly those theoretical buckets (every calendar
day of the range crossed with the 288 five-minute labels) whose key
`day@timeAt` is strictly below the current instant formatted `Ymd@Hi`. An
entry carries the stored summed bytes of its bucket, or zero bytes and zero
bits without a sample, whenever that sum lies in the range of a signed 64-bit
integer; in every case its bytes are a signed 64-bit integer and its bits are
eight times the bytes in 64-bit arithmetic. The keys of the result are
strictly increasing and none is at or after the current instant, on whatever
day. This holds for every conversion `GetInt64` may apply to a sum outside
the 64-bit range. -/
theorem FindUserBandwidthStatsBetweenDays_past_buckets (overflow : Int → Int) (st : Store)
    (currentTime : String) (userId regionId : Int) (dayFrom dayTo : String) (hUser : 0 < userId)
    (hFrom : isYYYYMMDD dayFrom = true) (hTo : isYYYYMMDD dayTo = true)
    (hOrder : strLe dayFrom dayTo = true) :
    ∃ result,
      FindUserBandwidthStatsBetweenDays overflow st currentTime userId regionId dayFrom dayTo =
        .ok result ∧
      result.map (fun e => (e.Day, e.TimeAt)) =
        (theoreticalBuckets dayFrom dayTo).filter
          (fun b => strLt (compositeKey b.1 b.2) currentTime) ∧
      (∀ e ∈ result,
        fitsInt64 (bucketSum (st (shardOf userId)).rows userId regionId (e.Day, e.TimeAt)) = true →
          e = bucketEntry (st (shardOf userId)).rows userId regionId (e.Day, e.TimeAt)) ∧
      ((∀ b ∈ theoreticalBuckets dayFrom dayTo, strLt (compositeKey b.1 b.2) currentTime = true →
          fitsInt64 (bucketSum (st (shardOf userId)).rows userId regionId b) = true) →
        result = ((theoreticalBuckets dayFrom dayTo).filter
          (fun b => strLt (compositeKey b.1 b.2) currentTime)).map
            (bucketEntry (st (shardOf userId)).rows userId regionId)) ∧
      (∀ e ∈ result, fitsInt64 e.Bytes = true ∧ e.Bits = wrapInt64 (e.Bytes * 8)) ∧
      (result.map (fun e => compositeKey e.Day e.TimeAt)).Pairwise
        (fun a b => strLt a b = true) ∧
      (∀ e ∈ result, strLt (compositeKey e.Day e.TimeAt) currentTime = true) := by
  have hcall := FindUserBandwidthStatsBetweenDays_eq overflow st currentTime userId regionId
    dayFrom dayTo hUser hFrom hTo hOrder
  have hkeys : ∀ l : List (String × String),
      (l.map (readEntry overflow (st (shardOf userId)).rows userId regionId)).map
        (fun e => (e.Day, e.TimeAt)) = l := by
    intro l
    rw [List.map_map]
    conv_rhs => rw [← List.map_id l]
    apply List.map_congr_left
    intro b _
    show ((readEntry overflow _ userId regionId b).Day,
      (readEntry overflow _ userId regionId b).TimeAt) = b
    rw [(readEntry_day overflow _ userId regionId b).1,
      (readEntry_day overflow _ userId regionId b).2]
  refine ⟨_, hcall, hkeys _, ?_, ?_, ?_, ?_, ?_⟩
  · intro e he hfit
    obtain ⟨b, _, rfl⟩ := List.mem_map.1 he
    rw [(readEntry_day overflow _ userId regionId b).1,
      (readEntry_day overflow _ userId regionId b).2] at hfit ⊢
    exact readEntry_eq_bucketEntry overflow _ userId regionId b hfit
  · intro hall
    apply List.map_congr_left
    intro b hb
    exact readEntry_eq_bucketEntry overflow _ userId regionId b
      (hall b (List.mem_filter.1 hb).1 (List.mem_filter.1 hb).2)
  · intro e he
    obtain ⟨b, _, rfl⟩ := List.mem_map.1 he
    exact readEntry_int64 overflow _ userId regionId b
  · have hk := theoreticalBuckets_keys_pairwise currentTime dayFrom dayTo hFrom hTo
    have hmap : ∀ l : List (String × String),
        (l.map (readEntry overflow (st (shardOf userId)).rows userId regionId)).map
          (fun e => compositeKey e.Day e.TimeAt) = l.map (fun b => compositeKey b.1 b.2) := by
      intro l
      rw [List.map_map]
      apply List.map_congr_left
      intro b _
      show compositeKey (readEntry overflow _ userId regionId b).Day
        (readEntry overflow _ userId regionId b).TimeAt = _
      rw [(readEntry_day overflow _ userId regionId b).1,
        (readEntry_day overflow _ userId regionId b).2]
    rw [hmap]
    exact hk
  · intro e he
    obtain ⟨b, hb, rfl⟩ := List.mem_map.1 he
    rw [(readEntry_day overflow _ userId regionId b).1,
      (readEntry_day overflow _ userId regionId b).2]
    exact (List.mem_filter.1 hb).2

/-- Claim C9, amended: for every call with `userId > 0` in which `dayFrom` or
`dayTo` does not consist of exactly eight decimal digits, the call returns an
error; the outcome does not depend on the store or the clock, so nothing is
read from storage. -/
theorem FindUserBandwidthStatsBetweenDays_malformed_day (overflow : Int → Int) (st : Store)
    (currentTime : String)
    (userId regionId : Int) (dayFrom dayTo : String) (hUser : 0 < userId)
    (hBad : isYYYYMMDD dayFrom = false ∨ isYYYYMMDD dayTo = false) :
    (∃ msg,
      FindUserBandwidthStatsBetweenDays overflow st currentTime userId regionId dayFrom dayTo =
        .error msg) ∧
      ∀ (overflow2 : Int → Int) (st2 : Store) (currentTime2 : String),
        FindUserBandwidthStatsBetweenDays overflow2 st2 currentTime2 userId regionId dayFrom
            dayTo =
          FindUserBandwidthStatsBetweenDays overflow st currentTime userId regionId dayFrom
            dayTo := by
  unfold FindUserBandwidthStatsBetweenDays
  simp only [if_neg (not_le.2 hUser)]
  cases hF : isYYYYMMDD dayFrom
  · simp
  · rcases hBad with h | h
    · rw [hF] at h; cases h
    · simp [h]

/-- Claim C9, counterexample: with `userId = 0` the guard for users that are
not positive returns first, and the malformed `dayFrom` `2024-1-1` yields a
successful empty result, not an error. -/
theorem FindUserBandwidthStatsBetweenDays_malformed_day_nonpositive_user :
    isYYYYMMDD "2024-1-1" = false ∧
      FindUserBandwidthStatsBetweenDays overflowToMin emptyStore "20240102@0000" 0 0 "2024-1-1"
          "20240101" =
        .ok [] := by
  decide

theorem runBatchTables_eq :
    runBatchTables =
      (List.finRange UserBandwidthStatTablePartials).map (fun (i : Fin UserBandwidthStatTablePartials) => partialTable ((i : Nat) : Int)) := by
  decide

/-! ### FindDistinctUserIds -/

theorem foldl_distinct (st : Store) (dayFrom dayTo : String) :
    ∀ (idxs : List (Fin UserBandwidthStatTablePartials)) (acc : List Int) (e : Option String),
      (idxs.map (fun (i : Fin UserBandwidthStatTablePartials) => partialTable ((i : Nat) : Int))).foldl
        (fun (acc : List Int × Option String) table =>
          match (match Query st table with
            | .error e => (acc.1, some e)
            | .ok t =>
              (acc.1 ++ (distinctUserIds t.rows (removeDashes dayFrom) (removeDashes dayTo)).filter
                (fun userId => decide (userId > 0)), none)) with
          | (s, some e) => (s, some e)
          | (s, none) => (s, acc.2))
        (acc, e) =
      (acc ++ idxs.flatMap (fun i =>
        (distinctUserIds (st i).rows (removeDashes dayFrom) (removeDashes dayTo)).filter
          (fun userId => decide (userId > 0))), e)
  | [], acc, e => by simp
  | i :: idxs, acc, e => by
    rw [List.map_cons, List.foldl_cons]
    have hq : Query st (partialTable ((i : Nat) : Int)) = .ok (st i) := by
      unfold Query; rw [findTable_partialTable_fin i]
    rw [hq]
    rw [foldl_distinct st dayFrom dayTo idxs, List.flatMap_cons, List.append_assoc]

theorem FindDistinctUserIds_eq (st : Store) (dayFrom dayTo : String) :
    FindDistinctUserIds st dayFrom dayTo =
      ((List.finRange UserBandwidthStatTablePartials).flatMap (fun i =>
        (distinctUserIds (st i).rows (removeDashes dayFrom) (removeDashes dayTo)).filter
          (fun userId => decide (userId > 0))), none) := by
  unfold FindDistinctUserIds runBatch
  rw [runBatchTables_eq]
  have := foldl_distinct st dayFrom dayTo (List.finRange UserBandwidthStatTablePartials) [] none
  simpa using this

theorem mem_incrementFirst (p : UserBandwidthStat → Bool) (c : Int) :
    ∀ (rows : List UserBandwidthStat) (r : UserBandwidthStat), r ∈ incrementFirst p c rows →
      ∃ r2 ∈ rows, r.UserId = r2.UserId
  | [], r, h => by simp [incrementFirst] at h
  | x :: rows, r, h => by
    unfold incrementFirst at h
    by_cases hp : p x = true
    · rw [if_pos hp] at h
      rcases List.mem_cons.1 h with rfl | h
      · exact ⟨x, List.mem_cons_self _ _, rfl⟩
      · exact ⟨r, List.mem_cons_of_mem _ h, rfl⟩
    · rw [if_neg hp] at h
      rcases List.mem_cons.1 h with rfl | h
      · exact ⟨r, List.mem_cons_self _ _, rfl⟩
      · obtain ⟨r2, h2, e⟩ := mem_incrementFirst p c rows r h
        exact ⟨r2, List.mem_cons_of_mem _ h2, e⟩

theorem ShardInvariant_of_reachable (st : Store) (h : Reachable st) : ShardInvariant st := by
  induction h with
  | empty => intro i r hr; simp [emptyStore] at hr
  | update st st2 userId regionId day timeAt bytes _ hupd ih =>
    by_cases hu : userId ≤ 0
    · rw [UpdateUserBandwidth_of_nonpos st userId regionId day timeAt bytes hu] at hupd
      injection hupd with hupd
      rw [← hupd]; exact ih
    · have hpos : 0 < userId := by omega
      rw [UpdateUserBandwidth_of_pos st userId regionId day timeAt bytes hpos] at hupd
      injection hupd with hupd
      rw [← hupd]
      intro i r hr
      by_cases hi : i = shardOf userId
      · subst hi
        rw [Function.update_same] at hr
        unfold InsertOrUpdateQuickly at hr
        by_cases hany : (st (shardOf userId)).rows.any (sameKey userId regionId day timeAt) = true
        · rw [if_pos hany] at hr
          obtain ⟨r2, h2, e⟩ := mem_incrementFirst _ _ _ r hr
          rw [e]; exact ih _ r2 h2
        · rw [if_neg hany] at hr
          rcases List.mem_append.1 hr with hr | hr
          · exact ih _ r hr
          · rw [List.mem_singleton] at hr
            subst hr
            exact ⟨hpos, rfl⟩
      · rw [Function.update_noteq hi] at hr
        exact ih i r hr

theorem mem_distinctUserIds (rows : List UserBandwidthStat) (dayFrom dayTo : String) (u : Int) :
    u ∈ distinctUserIds rows dayFrom dayTo ↔
      ∃ r ∈ rows, r.UserId = u ∧ strLe dayFrom r.Day = true ∧ strLe r.Day dayTo = true := by
  unfold distinctUserIds
  rw [List.mem_dedup, List.mem_map]
  constructor
  · rintro ⟨r, hr, rfl⟩
    rw [List.mem_filter] at hr
    simp only [Bool.and_eq_true] at hr
    exact ⟨r, hr.1, rfl, hr.2.1, hr.2.2⟩
  · rintro ⟨r, hr, rfl, h1, h2⟩
    exact ⟨r, List.mem_filter.2 ⟨hr, by simp [h1, h2]⟩, rfl⟩

theorem FindDistinctUserIds_spec (st : Store) (hst : ShardInvariant st) (dayFrom dayTo : String) :
    (FindDistinctUserIds st dayFrom dayTo).2 = none ∧
      (FindDistinctUserIds st dayFrom dayTo).1.Nodup ∧
      ∀ u, u ∈ (FindDistinctUserIds st dayFrom dayTo).1 ↔
        ∃ i, ∃ r ∈ (st i).rows, r.UserId = u ∧
          strLe (removeDashes dayFrom) r.Day = true ∧ strLe r.Day (removeDashes dayTo) = true := by
  rw [FindDistinctUserIds_eq]
  refine ⟨rfl, ?_, ?_⟩
  · dsimp only
    rw [List.nodup_flatMap]
    constructor
    · intro i _
      exact List.Nodup.filter _ (List.nodup_dedup _)
    · refine List.Pairwise.imp ?_ (List.nodup_finRange _)
      intro i j hij
      show List.Disjoint _ _
      intro u hui huj
      obtain ⟨r1, hr1, e1, _⟩ := (mem_distinctUserIds _ _ _ u).1 (List.mem_filter.1 hui).1
      obtain ⟨r2, hr2, e2, _⟩ := (mem_distinctUserIds _ _ _ u).1 (List.mem_filter.1 huj).1
      have h1 := (hst i r1 hr1).2
      have h2 := (hst j r2 hr2).2
      rw [e1] at h1; rw [e2] at h2
      exact hij (h1.symm.trans h2)
  · intro u
    dsimp only
    rw [List.mem_flatMap]
    constructor
    · rintro ⟨i, _, hu⟩
      exact ⟨i, (mem_distinctUserIds _ _ _ u).1 (List.mem_filter.1 hu).1⟩
    · rintro ⟨i, r, hr, e, h1, h2⟩
      refine ⟨i, List.mem_finRange i, List.mem_filter.2
        ⟨(mem_distinctUserIds _ _ _ u).2 ⟨r, hr, e, h1, h2⟩, ?_⟩⟩
      have := (hst i r hr).1
      rw [e] at this
      simpa using this

theorem removeDashes_of_no_dash (s : String) (h : '-' ∉ s.data) : removeDashes s = s := by
  unfold removeDashes
  have : s.data.filter (fun c => !decide (c = '-')) = s.data := by
    rw [List.filter_eq_self]
    intro c hc
    have hne : c ≠ '-' := fun e => h (e ▸ hc)
    simp [hne]
  rw [this]

/-- Claim C5: `FindDistinctUserIds` is complete and free of duplicates. For every
store reached from the empty store by `UpdateUserBandwidth` calls and every
pair of days, no table query fails, and the returned ids, in whatever order the
table workers appended them (any permutation of the order by table index),
hold no id twice and hold exactly the ids of the users with at least one
sample in any of the 20 tables whose day lies between the two days, read
without `-`; for days written without `-`, such as `YYYYMMDD` days, that is
the range `[dayFrom, dayTo]` itself. -/
theorem FindDistinctUserIds_complete_nodup (st : Store) (dayFrom dayTo : String)
    (userIds : List Int) (hst : Reachable st)
    (hperm : userIds.Perm (FindDistinctUserIds st dayFrom dayTo).1) :
    (FindDistinctUserIds st dayFrom dayTo).2 = none ∧ userIds.Nodup ∧
      (∀ u, u ∈ userIds ↔
        ∃ i, ∃ r ∈ (st i).rows, r.UserId = u ∧
          strLe (removeDashes dayFrom) r.Day = true ∧
            strLe r.Day (removeDashes dayTo) = true) ∧
      ('-' ∉ dayFrom.data → '-' ∉ dayTo.data →
        ∀ u, u ∈ userIds ↔
          ∃ i, ∃ r ∈ (st i).rows, r.UserId = u ∧
            strLe dayFrom r.Day = true ∧ strLe r.Day dayTo = true) := by
  obtain ⟨h1, h2, h3⟩ :=
    FindDistinctUserIds_spec st (ShardInvariant_of_reachable st hst) dayFrom dayTo
  refine ⟨h1, hperm.nodup_iff.2 h2, fun u => hperm.mem_iff.trans (h3 u), ?_⟩
  intro hF hT u
  have := hperm.mem_iff.trans (h3 u)
  rw [removeDashes_of_no_dash dayFrom hF, removeDashes_of_no_dash dayTo hT] at this
  exact this

/-! ### Clean -/

theorem deleteBefore_idem (t : PartialTable) (day : String) :
    deleteBefore (deleteBefore t day) day = deleteBefore t day := by
  unfold deleteBefore
  simp [List.filter_filter]

theorem foldl_clean (day : String) :
    ∀ (idxs : List (Fin UserBandwidthStatTablePartials)) (s : Store) (e : Option String),
      (idxs.map (fun (i : Fin UserBandwidthStatTablePartials) =>
          partialTable ((i : Nat) : Int))).foldl
        (fun (acc : Store × Option String) table =>
          match (match findTable table with
            | none => (acc.1, some ("table '" ++ table ++ "' doesn't exist"))
            | some i => (Function.update acc.1 i (deleteBefore (acc.1 i) day), none)) with
          | (s, some e) => (s, some e)
          | (s, none) => (s, acc.2))
        (s, e) =
      ((fun i => if i ∈ idxs then deleteBefore (s i) day else s i), e)
  | [], s, e => by simp
  | i :: idxs, s, e => by
    rw [List.map_cons, List.foldl_cons, findTable_partialTable_fin i]
    rw [foldl_clean day idxs]
    congr 1
    funext j
    by_cases hji : j = i
    · subst hji
      simp only [Function.update_same, List.mem_cons, true_or, if_true]
      by_cases hm : j ∈ idxs
      · rw [if_pos hm, deleteBefore_idem]
      · rw [if_neg hm]
    · simp only [Function.update_noteq hji, List.mem_cons, hji, false_or]

theorem Clean_eq (st : Store) (now : Date) :
    Clean st now =
      ((fun i => deleteBefore (st i) (formatYmd (Date.daysBefore 100 now))), none) := by
  unfold Clean runBatch
  rw [runBatchTables_eq]
  have := foldl_clean (formatYmd (Date.daysBefore 100 now))
    (List.finRange UserBandwidthStatTablePartials) st none
  simp only [List.mem_finRange, if_true] at this
  exact this

/-! ### Calendar -/

theorem daysInMonth_bounds (y m : Nat) : 28 ≤ daysInMonth y m ∧ daysInMonth y m ≤ 31 := by
  unfold daysInMonth
  split_ifs <;> omega

theorem Date.prev_spec (d : Date) (h : d.wellFormed) :
    d.prev.wellFormed ∧ d.ordinal ≤ d.prev.ordinal + 2 ∧
      (1 < d.ordinal →
        d.prev.year * 10000 + d.prev.month * 100 + d.prev.day <
          d.year * 10000 + d.month * 100 + d.day) := by
  obtain ⟨y, m, dd⟩ := d
  obtain ⟨hy, hm1, hm2, hd1, hd2⟩ := h
  simp only at hy hm1 hm2 hd1 hd2
  have hb := daysInMonth_bounds y (m - 1)
  unfold Date.prev Date.wellFormed Date.ordinal
  simp only
  by_cases h1 : 1 < dd
  · simp only [h1, if_true]
    refine ⟨⟨hy, hm1, hm2, by omega, by omega⟩, by omega, fun _ => by omega⟩
  · simp only [h1, if_false]
    by_cases h2 : 1 < m
    · simp only [h2, if_true]
      refine ⟨⟨hy, by omega, by omega, by omega, le_refl _⟩, ?_, fun _ => by omega⟩
      have hdd : dd = 1 := by omega
      subst hdd
      interval_cases m <;> simp [daysBeforeMonth, daysInMonth]
      split_ifs <;> omega
    · simp only [h2, if_false]
      have hm : m = 1 := by omega
      have hdd : dd = 1 := by omega
      subst hm; subst hdd
      refine ⟨⟨by omega, by norm_num, by norm_num, by norm_num, by simp [daysInMonth]⟩, ?_, ?_⟩
      · simp [daysBeforeMonth]; omega
      · simp only [daysBeforeMonth]
        intro hlt
        omega

theorem Date.daysBefore_prev : ∀ (n : Nat) (d : Date),
    Date.daysBefore n d.prev = (Date.daysBefore n d).prev
  | 0, _ => rfl
  | n + 1, d => by
    show Date.daysBefore n d.prev.prev = (Date.daysBefore n d.prev).prev
    exact Date.daysBefore_prev n d.prev

theorem Date.daysBefore_spec : ∀ (n : Nat) (d : Date), d.wellFormed →
    (Date.daysBefore n d).wellFormed ∧ d.ordinal ≤ (Date.daysBefore n d).ordinal + 2 * n
  | 0, d, h => ⟨h, by simp [Date.daysBefore]⟩
  | n + 1, d, h => by
    obtain ⟨h1, h2, _⟩ := Date.prev_spec d h
    obtain ⟨h3, h4⟩ := Date.daysBefore_spec n d.prev h1
    exact ⟨h3, by show d.ordinal ≤ (Date.daysBefore n d.prev).ordinal + 2 * (n + 1); omega⟩

theorem formatYmd_horizon_lt (now : Date) (h : now.valid = true) :
    strLt (formatYmd (Date.daysBefore 101 now)) (formatYmd (Date.daysBefore 100 now)) = true := by
  unfold Date.valid at h
  simp only [Bool.and_eq_true, decide_eq_true_eq] at h
  obtain ⟨⟨⟨⟨⟨hy1, hy2⟩, hm1⟩, hm2⟩, hd1⟩, hd2⟩ := h
  have hwf : now.wellFormed := ⟨hy2, hm1, hm2, hd1, hd2⟩
  obtain ⟨hX, hord⟩ := Date.daysBefore_spec 100 now hwf
  have hnow : 367 ≤ now.ordinal := by
    unfold Date.ordinal
    have : 1 * 366 ≤ now.year * 366 := Nat.mul_le_mul_right _ hy1
    omega
  obtain ⟨_, _, hlt⟩ := Date.prev_spec (Date.daysBefore 100 now) hX
  have hnum := hlt (by omega)
  have h101 : Date.daysBefore 101 now = (Date.daysBefore 100 now).prev :=
    Date.daysBefore_prev 100 now
  rw [h101]
  unfold formatYmd strLt
  apply fixedDigits_lt 8 _ _ hnum
  obtain ⟨a1, a2, a3, a4, a5⟩ := hX
  have := daysInMonth_bounds (Date.daysBefore 100 now).year (Date.daysBefore 100 now).month
  norm_num
  omega

/-- Claim C6: `Clean` deletes exactly the stale samples. For every store and
current date (a calendar day of the years 1 to 9999), with the horizon the
`YYYYMMDD` day 100 days before it, `Clean` succeeds and every table then holds
exactly the rows it held before whose day is `>=` the horizon, unchanged and in
their order; a row dated exactly 100 days back is kept and a row dated 101 days
back is deleted. -/
theorem Clean_deletes_exactly_stale (st : Store) (now : Date) (hNow : now.valid = true) :
    (Clean st now).2 = none ∧
      (∀ i, ((Clean st now).1 i).rows =
        (st i).rows.filter (fun r => strLe (formatYmd (Date.daysBefore 100 now)) r.Day)) ∧
      (∀ i, ((Clean st now).1 i).autoIncrement = (st i).autoIncrement) ∧
      (∀ i, ∀ r ∈ (st i).rows, r.Day = formatYmd (Date.daysBefore 100 now) →
        r ∈ ((Clean st now).1 i).rows) ∧
      (∀ i, ∀ r ∈ (st i).rows, r.Day = formatYmd (Date.daysBefore 101 now) →
        r ∉ ((Clean st now).1 i).rows) := by
  rw [Clean_eq]
  refine ⟨rfl, fun i => rfl, fun i => rfl, ?_, ?_⟩
  · intro i r hr hday
    show r ∈ (deleteBefore (st i) _).rows
    unfold deleteBefore
    refine List.mem_filter.2 ⟨hr, ?_⟩
    rw [hday]
    unfold strLt
    rw [ltChars_irrefl]; rfl
  · intro i r hr hday hmem
    have hmem' : r ∈ (deleteBefore (st i) (formatYmd (Date.daysBefore 100 now))).rows := hmem
    unfold deleteBefore at hmem'
    have := (List.mem_filter.1 hmem').2
    rw [hday, formatYmd_horizon_lt now hNow] at this
    cases this

/-! ## The claims -/

/-- Claim C1: `FindPercentileBetweenDays` is descending rank selection. For every
tenant id that is not negative, every region filter, day range and percentile
the call succeeds; with `n` the number of distinct matching `(day, timeAt)`
buckets of the tenant's table and `S` their summed bytes sorted descending, the
result is absent when `n = 0`, and the bytes of the result are `S[offset]`
whenever that position exists (and the result is absent when it does not),
where `offset = rankOffset n percentile` replaces `percentile <= 0` by 95, is 0
for `percentile >= 100` or `n = 1`, and is `ceil(n * (100 - percentile) / 100)`
otherwise. A returned row is one of the matching buckets with that bucket's sum. -/
theorem FindPercentileBetweenDays_rank_selection (st : Store) (userId regionId : Int)
    (dayFrom dayTo : String) (percentile : Int) (hUser : 0 ≤ userId) :
    ∃ res, FindPercentileBetweenDays st userId regionId dayFrom dayTo percentile = .ok res ∧
      ((rankBuckets (st (shardOf userId)).rows userId regionId dayFrom dayTo).length = 0 →
        res = none) ∧
      res.map (fun b => b.Bytes) =
        (rankSortedSums (st (shardOf userId)).rows userId regionId dayFrom dayTo)[
          rankOffset (rankBuckets (st (shardOf userId)).rows userId regionId dayFrom dayTo).length
            percentile]? ∧
      (∀ b, res = some b →
        bucketOf b ∈ rankBuckets (st (shardOf userId)).rows userId regionId dayFrom dayTo ∧
        b.Bytes = rankBucketSum (st (shardOf userId)).rows userId regionId dayFrom dayTo
          (bucketOf b)) :=
  FindPercentileBetweenDays_spec st userId regionId dayFrom dayTo percentile hUser

theorem FindPercentileBetweenDays_rank_selection_witness :
    (0 : Int) ≤ 1 ∧
    ∃ res, FindPercentileBetweenDays fiveBuckets 1 0 "20240101" "20240101" 80 = .ok res ∧
      ((rankBuckets (fiveBuckets (shardOf 1)).rows 1 0 "20240101" "20240101").length = 0 →
        res = none) ∧
      res.map (fun b => b.Bytes) =
        (rankSortedSums (fiveBuckets (shardOf 1)).rows 1 0 "20240101" "20240101")[
          rankOffset (rankBuckets (fiveBuckets (shardOf 1)).rows 1 0 "20240101" "20240101").length
            80]? ∧
      (∀ b, res = some b →
        bucketOf b ∈ rankBuckets (fiveBuckets (shardOf 1)).rows 1 0 "20240101" "20240101" ∧
        b.Bytes = rankBucketSum (fiveBuckets (shardOf 1)).rows 1 0 "20240101" "20240101"
          (bucketOf b)) :=
  ⟨by decide,
    FindPercentileBetweenDays_rank_selection fiveBuckets 1 0 "20240101" "20240101" 80 (by decide)⟩

theorem FindPercentileBetweenDays_rank_bound_witness :
    ((0 : Int) ≤ 1 ∧ (1 : Int) ≤ 50 ∧ (50 : Int) ≤ 99 ∧
      FindPercentileBetweenDays fiveBuckets 1 0 "20240101" "20240101" 50 =
        .ok (some ⟨5, 1, 0, "20240101", "0020", 20⟩)) ∧
    ((rankBuckets (fiveBuckets (shardOf 1)).rows 1 0 "20240101" "20240101").length -
        rankOffset (rankBuckets (fiveBuckets (shardOf 1)).rows 1 0 "20240101" "20240101").length
          50 ≤
      bucketsAtMost (fiveBuckets (shardOf 1)).rows 1 0 "20240101" "20240101" 20 ∧
    (50 : Int) * ((rankBuckets (fiveBuckets (shardOf 1)).rows 1 0 "20240101" "20240101").length : Int) <
      100 * ((bucketsAtMost (fiveBuckets (shardOf 1)).rows 1 0 "20240101" "20240101" 20 : Int) + 1)) :=
  ⟨by decide,
    FindPercentileBetweenDays_rank_bound fiveBuckets 1 0 "20240101" "20240101" 50
      ⟨5, 1, 0, "20240101", "0020", 20⟩ (by decide) (by decide) (by decide) (by decide)⟩

/-- Claim C2, counterexample: with the five bucket sums 50, 40, 30, 20, 10 and
percentile 50 the call returns the bucket with sum 20, and only 2 of the 5
buckets have a sum of at most 20, which is less than 50 percent. -/
theorem percentile_share_counterexample :
    FindPercentileBetweenDays fiveBuckets 1 0 "20240101" "20240101" 50 =
        .ok (some ⟨5, 1, 0, "20240101", "0020", 20⟩) ∧
      (rankBuckets (fiveBuckets 1).rows 1 0 "20240101" "20240101").length = 5 ∧
      bucketsAtMost (fiveBuckets 1).rows 1 0 "20240101" "20240101" 20 = 2 ∧
      ¬ (100 * (bucketsAtMost (fiveBuckets 1).rows 1 0 "20240101" "20240101" 20 : Int) ≥
        50 * ((rankBuckets (fiveBuckets 1).rows 1 0 "20240101" "20240101").length : Int)) := by
  decide

theorem UpdateUserBandwidth_accumulates_commutatively_witness :
    (0 : Int) < 1 ∧
    ∃ st2 : Store,
      (UpdateUserBandwidth emptyStore 1 0 "20240101" "0000" 100 >>=
        fun st1 => UpdateUserBandwidth st1 1 0 "20240101" "0000" 50) = .ok st2 ∧
      (UpdateUserBandwidth emptyStore 1 0 "20240101" "0000" 50 >>=
        fun st1 => UpdateUserBandwidth st1 1 0 "20240101" "0000" 100) = .ok st2 ∧
      (∃ row, findRow st2 1 0 "20240101" "0000" = some row ∧
        row.Bytes =
          ((findRow emptyStore 1 0 "20240101" "0000").map (fun x => x.Bytes)).getD 0 + (100 + 50)) ∧
      (∀ i, (st2 i).rows.filter (fun x => !sameKey 1 0 "20240101" "0000" x) =
        (emptyStore i).rows.filter (fun x => !sameKey 1 0 "20240101" "0000" x)) ∧
      (∀ i, i ≠ shardOf 1 → st2 i = emptyStore i) :=
  ⟨by decide,
    UpdateUserBandwidth_accumulates_commutatively emptyStore 1 0 "20240101" "0000" 100 50
      (by decide)⟩

theorem FindUserBandwidthStatsBetweenDays_past_buckets_witness :
    ((0 : Int) < 1 ∧ isYYYYMMDD "20240101" = true ∧ isYYYYMMDD "20240102" = true ∧
      strLe "20240101" "20240102" = true) ∧
    ∃ result,
      FindUserBandwidthStatsBetweenDays overflowToMin fiveBuckets "20240102@0007" 1 0
        "20240101" "20240102" = .ok result ∧
      result.map (fun e => (e.Day, e.TimeAt)) =
        (theoreticalBuckets "20240101" "20240102").filter
          (fun b => strLt (compositeKey b.1 b.2) "20240102@0007") ∧
      (∀ e ∈ result,
        fitsInt64 (bucketSum (fiveBuckets (shardOf 1)).rows 1 0 (e.Day, e.TimeAt)) = true →
          e = bucketEntry (fiveBuckets (shardOf 1)).rows 1 0 (e.Day, e.TimeAt)) ∧
      ((∀ b ∈ theoreticalBuckets "20240101" "20240102",
          strLt (compositeKey b.1 b.2) "20240102@0007" = true →
            fitsInt64 (bucketSum (fiveBuckets (shardOf 1)).rows 1 0 b) = true) →
        result = ((theoreticalBuckets "20240101" "20240102").filter
          (fun b => strLt (compositeKey b.1 b.2) "20240102@0007")).map
            (bucketEntry (fiveBuckets (shardOf 1)).rows 1 0)) ∧
      (∀ e ∈ result, fitsInt64 e.Bytes = true ∧ e.Bits = wrapInt64 (e.Bytes * 8)) ∧
      (result.map (fun e => compositeKey e.Day e.TimeAt)).Pairwise
        (fun a b => strLt a b = true) ∧
      (∀ e ∈ result, strLt (compositeKey e.Day e.TimeAt) "20240102@0007" = true) :=
  ⟨by decide,
    FindUserBandwidthStatsBetweenDays_past_buckets overflowToMin fiveBuckets "20240102@0007" 1 0
      "20240101" "20240102" (by decide) (by decide) (by decide) (by decide)⟩

theorem hugeBucket_reachable : Reachable hugeBucket :=
  Reachable.update _ _ 1 1 "20240101" "0000" (2 ^ 62)
    (Reachable.update emptyStore _ 1 0 "20240101" "0000" (2 ^ 62) Reachable.empty
      (UpdateUserBandwidth_of_pos emptyStore 1 0 "20240101" "0000" (2 ^ 62) (by decide)))
    (UpdateUserBandwidth_of_pos _ 1 1 "20240101" "0000" (2 ^ 62) (by decide))

/-- Claim C4, counterexample: user 1 records `2^62` bytes for region 0 and `2^62`
bytes for region 1 in the bucket `20240101@0000`. Each stored row is in the
range of `int64`, and the stored sum of the bucket over all regions is `2^63`.
The report for region filter 0 reads the sum with `GetInt64`, so the entry of
the bucket cannot carry `2^63`: it carries `-2^63` when the conversion wraps
or falls to the least `int64`, and for no conversion the stored sum. -/
theorem FindUserBandwidthStatsBetweenDays_sum_beyond_int64 :
    Reachable hugeBucket ∧
    (hugeBucket (shardOf 1)).rows =
      [⟨1, 1, 0, "20240101", "0000", 4611686018427387904⟩,
       ⟨2, 1, 1, "20240101", "0000", 4611686018427387904⟩] ∧
    (∀ r ∈ (hugeBucket (shardOf 1)).rows, fitsInt64 r.Bytes = true) ∧
    bucketSum (hugeBucket (shardOf 1)).rows 1 0 ("20240101", "0000") = 9223372036854775808 ∧
    FindUserBandwidthStatsBetweenDays overflowToMin hugeBucket "20240101@0003" 1 0
        "20240101" "20240101" =
      .ok [⟨-9223372036854775808, 0, "20240101", "0000"⟩] ∧
    FindUserBandwidthStatsBetweenDays (fun x => x) hugeBucket "20240101@0003" 1 0
        "20240101" "20240101" =
      .ok [⟨-9223372036854775808, 0, "20240101", "0000"⟩] ∧
    ∀ overflow : Int → Int, ∃ e,
      FindUserBandwidthStatsBetweenDays overflow hugeBucket "20240101@0003" 1 0
          "20240101" "20240101" = .ok [e] ∧
        e.Day = "20240101" ∧ e.TimeAt = "0000" ∧
        e.Bytes ≠ bucketSum (hugeBucket (shardOf 1)).rows 1 0 ("20240101", "0000") := by
  refine ⟨hugeBucket_reachable, by decide, by decide, by decide, by decide, by decide, ?_⟩
  intro overflow
  have hcall := FindUserBandwidthStatsBetweenDays_eq overflow hugeBucket "20240101@0003" 1 0
    "20240101" "20240101" (by decide) (by decide) (by decide) (by decide)
  have hf : (theoreticalBuckets "20240101" "20240101").filter
      (fun b => strLt (compositeKey b.1 b.2) "20240101@0003") = [("20240101", "0000")] := by
    decide
  rw [hf] at hcall
  refine ⟨_, hcall, (readEntry_day overflow _ 1 0 _).1, (readEntry_day overflow _ 1 0 _).2, ?_⟩
  rw [readEntry_eq, if_neg (by decide)]
  exact GetInt64_ne_of_not_fits overflow
    (bucketSum (hugeBucket (shardOf 1)).rows 1 0 ("20240101", "0000")) (by decide)

theorem twoUsers_reachable : Reachable twoUsers :=
  Reachable.update _ _ 2 0 "20240102" "0005" 7
    (Reachable.update emptyStore _ 21 0 "20240101" "0000" 100 Reachable.empty
      (UpdateUserBandwidth_of_pos emptyStore 21 0 "20240101" "0000" 100 (by decide)))
    (UpdateUserBandwidth_of_pos _ 2 0 "20240102" "0005" 7 (by decide))

theorem FindDistinctUserIds_complete_nodup_witness :
    (Reachable twoUsers ∧
      [2, 21].Perm (FindDistinctUserIds twoUsers "20240101" "20240131").1) ∧
    ((FindDistinctUserIds twoUsers "20240101" "20240131").2 = none ∧ [(2 : Int), 21].Nodup ∧
      (∀ u, u ∈ [(2 : Int), 21] ↔
        ∃ i, ∃ r ∈ (twoUsers i).rows, r.UserId = u ∧
          strLe (removeDashes "20240101") r.Day = true ∧
            strLe r.Day (removeDashes "20240131") = true) ∧
      ('-' ∉ "20240101".data → '-' ∉ "20240131".data →
        ∀ u, u ∈ [(2 : Int), 21] ↔
          ∃ i, ∃ r ∈ (twoUsers i).rows, r.UserId = u ∧
            strLe "20240101" r.Day = true ∧ strLe r.Day "20240131" = true)) :=
  ⟨⟨twoUsers_reachable, by decide⟩,
    FindDistinctUserIds_complete_nodup twoUsers "20240101" "20240131" [2, 21]
      twoUsers_reachable (by decide)⟩

theorem Clean_deletes_exactly_stale_witness :
    Date.valid ⟨2024, 4, 10⟩ = true ∧
    ((Clean staleAndFresh ⟨2024, 4, 10⟩).2 = none ∧
      (∀ i, ((Clean staleAndFresh ⟨2024, 4, 10⟩).1 i).rows =
        (staleAndFresh i).rows.filter
          (fun r => strLe (formatYmd (Date.daysBefore 100 ⟨2024, 4, 10⟩)) r.Day)) ∧
      (∀ i, ((Clean staleAndFresh ⟨2024, 4, 10⟩).1 i).autoIncrement =
        (staleAndFresh i).autoIncrement) ∧
      (∀ i, ∀ r ∈ (staleAndFresh i).rows, r.Day = formatYmd (Date.daysBefore 100 ⟨2024, 4, 10⟩) →
        r ∈ ((Clean staleAndFresh ⟨2024, 4, 10⟩).1 i).rows) ∧
      (∀ i, ∀ r ∈ (staleAndFresh i).rows, r.Day = formatYmd (Date.daysBefore 101 ⟨2024, 4, 10⟩) →
        r ∉ ((Clean staleAndFresh ⟨2024, 4, 10⟩).1 i).rows)) :=
  ⟨by decide, Clean_deletes_exactly_stale staleAndFresh ⟨2024, 4, 10⟩ (by decide)⟩

theorem partialTable_total_on_nonneg_witness :
    (0 : Int) ≤ 12345 ∧
    ((0 : Int) ≤ 12345 % 20 ∧ (12345 : Int) % 20 < 20 ∧
      partialTable 12345 = Table ++ "_" ++ toString ((12345 : Int) % 20) ∧
      partialTable 12345 ∈ runBatchTables ∧
      findTable (partialTable 12345) = some (shardOf 12345)) :=
  ⟨by decide, partialTable_total_on_nonneg 12345 (by decide)⟩

/-- Claim C8: tenant attribution guard. For every `userId <= 0` and every
`regionId`, `day`, `timeAt` and `bytes`, `UpdateUserBandwidth` returns without
error and leaves the store as it was, so no row is persisted. -/
theorem UpdateUserBandwidth_nonpositive_user (st : Store) (userId regionId : Int)
    (day timeAt : String) (bytes : Int) (hUser : userId ≤ 0) :
    UpdateUserBandwidth st userId regionId day timeAt bytes = .ok st :=
  UpdateUserBandwidth_of_nonpos st userId regionId day timeAt bytes hUser

theorem UpdateUserBandwidth_nonpositive_user_witness :
    ((0 : Int) ≤ 0 ∧ UpdateUserBandwidth fiveBuckets 0 3 "20240101" "0000" 1024 = .ok fiveBuckets) ∧
    ((-5 : Int) ≤ 0 ∧
      UpdateUserBandwidth fiveBuckets (-5) 3 "20240101" "0000" 1024 = .ok fiveBuckets) :=
  ⟨⟨by decide,
      UpdateUserBandwidth_nonpositive_user fiveBuckets 0 3 "20240101" "0000" 1024 (by decide)⟩,
    ⟨by decide,
      UpdateUserBandwidth_nonpositive_user fiveBuckets (-5) 3 "20240101" "0000" 1024 (by decide)⟩⟩

theorem FindUserBandwidthStatsBetweenDays_malformed_day_witness :
    ((0 : Int) < 1 ∧ (isYYYYMMDD "2024-1-1" = false ∨ isYYYYMMDD "20240101" = false)) ∧
    ((∃ msg, FindUserBandwidthStatsBetweenDays overflowToMin fiveBuckets "20240102@0000" 1 0
        "2024-1-1" "20240101" = .error msg) ∧
      ∀ (overflow2 : Int → Int) (st2 : Store) (currentTime2 : String),
        FindUserBandwidthStatsBetweenDays overflow2 st2 currentTime2 1 0 "2024-1-1"
            "20240101" =
          FindUserBandwidthStatsBetweenDays overflowToMin fiveBuckets "20240102@0000" 1 0
            "2024-1-1" "20240101") :=
  ⟨by decide,
    FindUserBandwidthStatsBetweenDays_malformed_day overflowToMin fiveBuckets "20240102@0000" 1 0
      "2024-1-1" "20240101" (by decide) (by decide)⟩

/-- Claim C10, the code at a failing input: five buckets match, percentile 10
gives the offset `ceil(5 * 90 / 100) = 5`, which is not below the bucket count,
and the call returns absent although buckets exist. Two buckets with
percentile 1 overshoot in the same way. -/
theorem percentile_offset_overshoots :
    countDistinctDayTimeAt
        (whereRows (fiveBuckets 1).rows (percentileRegion 0) 1 "20240101" "20240101") = 5 ∧
      percentileOffset 5 10 = 5 ∧
      FindPercentileBetweenDays fiveBuckets 1 0 "20240101" "20240101" 10 = .ok none ∧
      percentileOffset 2 1 = 2 := by
  decide

/-! ## The worked examples of the specification -/

theorem percentile_80_of_five_buckets :
    percentileOffset 5 80 = 1 ∧
      FindPercentileBetweenDays fiveBuckets 1 0 "20240101" "20240101" 80 =
        .ok (some ⟨4, 1, 0, "20240101", "0015", 40⟩) := by
  decide

theorem percentile_100_of_three_buckets :
    FindPercentileBetweenDays threeBuckets 1 0 "20240101" "20240102" 100 =
      .ok (some ⟨2, 1, 0, "20240101", "0005", 50⟩) := by
  decide

theorem single_bucket_any_percentile (percentile : Int) :
    FindPercentileBetweenDays oneBucket 1 0 "20240101" "20240101" percentile =
      .ok (some ⟨1, 1, 0, "20240101", "0000", 70⟩) := by
  have hq : Query oneBucket (partialTable 1) = .ok (oneBucket 1) := by decide
  have hw : whereRows (oneBucket 1).rows (percentileRegion 0) 1 "20240101" "20240101" =
      [⟨1, 1, 0, "20240101", "0000", 70⟩] := by decide
  have hs : strLt "20240101" "20240101" = false := by decide
  unfold FindPercentileBetweenDays
  simp only [hs, Bool.false_eq_true, if_false, hq, hw]
  have hc : countDistinctDayTimeAt [(⟨1, 1, 0, "20240101", "0000", 70⟩ : UserBandwidthStat)] = 1 := by
    decide
  have hg : orderByBytesDesc (groupByDayTimeAt
      [(⟨1, 1, 0, "20240101", "0000", 70⟩ : UserBandwidthStat)]) =
      [⟨1, 1, 0, "20240101", "0000", 70⟩] := by decide
  rw [hc, hg]
  have ho : ∀ p : Int, percentileOffset 1 p = 0 := fun p => by
    unfold percentileOffset; simp
  split_ifs <;> first | omega | simp [ho]

theorem record_100_then_50 :
    ((UpdateUserBandwidth emptyStore 1 0 "20240101" "0000" 100 >>=
        fun st1 => UpdateUserBandwidth st1 1 0 "20240101" "0000" 50).toOption.bind
      (fun st2 => findRow st2 1 0 "20240101" "0000")) =
      some ⟨1, 1, 0, "20240101", "0000", 150⟩ := by
  decide

set_option maxRecDepth 100000 in
theorem retention_boundary :
    formatYmd (Date.daysBefore 100 ⟨2024, 4, 10⟩) = "20240101" ∧
      formatYmd (Date.daysBefore 101 ⟨2024, 4, 10⟩) = "20231231" ∧
      ((Clean staleAndFresh ⟨2024, 4, 10⟩).1 1).rows = [⟨2, 1, 0, "20240101", "0000", 8⟩] := by
  decide

set_option maxRecDepth 1000000 in
set_option maxHeartbeats 4000000 in
theorem one_day_range_without_samples :
    reportSummary "20240101"
      (FindUserBandwidthStatsBetweenDays overflowToMin emptyStore "20240103@0030" 1 0
        "20240101" "20240101") =
      some (288, true, true, some "0000", some "2355") := by
  decide

theorem range_report_stops_at_now :
    FindUserBandwidthStatsBetweenDays overflowToMin fiveBuckets "20240101@0012" 1 0
        "20240101" "20240103" =
      .ok [⟨30, 240, "20240101", "0000"⟩, ⟨50, 400, "20240101", "0005"⟩,
           ⟨10, 80, "20240101", "0010"⟩] := by
  decide

theorem percentile_query_for_negative_user :
    (FindPercentileBetweenDays emptyStore (-5) 0 "20240101" "20240101" 95).toBool = false := by
  decide

theorem float64_offsets :
    float64CeilDiv100 (5 * 20) = 1 ∧ float64CeilDiv100 (5 * 90) = 5 ∧
      float64CeilDiv100 (2 * 99) = 2 ∧ float64CeilDiv100 (30 * 5) = 2 := by
  decide

end EdgeAPI
